import Mathlib

/-!
Shallow embedding of the virtual-filesystem core of the React terminal
application (src/App.tsx, src/constants.ts, the editor overlay component).

JavaScript strings are modelled as Lean `String`; the handful of string
operations the source uses (`split`, `join`, `trim`, `substring`,
`lastIndexOf`, `startsWith`, quote stripping, `includes`) are implemented
here by structural recursion over the character list so that every
definition evaluates by kernel reduction.

The filesystem (`FileSystem` in types.ts) is a record from names to nodes;
JavaScript records are modelled as association lists: lookup takes the
first binding, assignment replaces an existing binding in place or appends
a new one, `delete` removes the binding.  Deep copies (`JSON.parse(JSON.
stringify(...))`) are the identity on pure values.  A JavaScript
`TypeError` (accessing `.children` of `null` or of a file node) is
modelled by returning `none` from the mutating operation.
-/

/-- Model of JS `String.prototype.split` with a single-character separator:
splits at every occurrence, keeping empty pieces. -/
def splitCharList (c : Char) : List Char → List (List Char)
  | [] => [[]]
  | x :: xs =>
    if x = c then [] :: splitCharList c xs
    else
      match splitCharList c xs with
      | [] => [[x]]
      | h :: t => (x :: h) :: t

/-- JS `path.split('/')` and friends. -/
def jsSplitChar (s : String) (c : Char) : List String :=
  (splitCharList c s.data).map String.mk

/-- JS `array.join('/')`. -/
def jsJoinSlash : List String → String
  | [] => ""
  | [x] => x
  | x :: xs => x ++ "/" ++ jsJoinSlash xs

/-- Character-list counterpart of `jsJoinSlash`, used to relate split and
join in the resolver lemmas. -/
def joinCharList (c : Char) : List (List Char) → List Char
  | [] => []
  | [x] => x
  | x :: xs => x ++ c :: joinCharList c xs

/-- JS `String.prototype.trim`. -/
def jsTrim (s : String) : String :=
  String.mk (((s.data.dropWhile Char.isWhitespace).reverse.dropWhile Char.isWhitespace).reverse)

/-- JS `s.substring(n)` (drop the first `n` characters). -/
def jsDrop (s : String) (n : Nat) : String := String.mk (s.data.drop n)

/-- JS `s.substring(0, n)` (take the first `n` characters). -/
def jsTake (s : String) (n : Nat) : String := String.mk (s.data.take n)

/-- JS `path.startsWith('/')`. -/
def jsStartsWithSlash (s : String) : Bool := s.data.head? == some '/'

/-- JS `path.replace(/\/$/, '')`: removes one trailing slash if present. -/
def stripTrailingSlash (s : String) : String :=
  if s.data.getLast? == some '/' then String.mk s.data.dropLast else s

/-- JS `s.lastIndexOf(c)` as an `Option` (JS returns -1 when absent). -/
def lastIndexOfChar (s : String) (c : Char) : Option Nat :=
  ((s.data.enum.filter (fun p => p.2 == c)).map (fun p => p.1)).getLast?

/-- The apostrophe character (U+0027). -/
def apostropheChar : Char := Char.ofNat 39

/-- Is the character a single or double quote? -/
def isQuoteChar (c : Char) : Bool := c == '"' || c == apostropheChar

/-- Model of `replace(/^['\x22]|['\x22]$/g, '')` in the echo handler: strips
one leading quote character if present, then one trailing quote character
if present. -/
def stripOuterQuotes (s : String) : String :=
  let l1 :=
    match s.data with
    | c :: rest => if isQuoteChar c then rest else s.data
    | [] => []
  let l2 :=
    match l1.getLast? with
    | some c => if isQuoteChar c then l1.dropLast else l1
    | none => l1
  String.mk l2

/-- Substring test on character lists (left-to-right scan). -/
def listIsSubstrOf (pat : List Char) : List Char → Bool
  | [] => pat.isEmpty
  | x :: xs => pat.isPrefixOf (x :: xs) || listIsSubstrOf pat xs

/-- JS `line.includes(pattern)`: case-sensitive substring containment. -/
def jsIncludes (s pat : String) : Bool := listIsSubstrOf pat.data s.data

/-- Filesystem node (types.ts): tagged union of FILE (name, content) and
DIRECTORY (name, children record). -/
inductive Node where
  | file : String → String → Node
  | dir : String → List (String × Node) → Node

/-- The top-level `FileSystem` record: names to nodes. -/
abbrev FS := List (String × Node)

/-- Name field of a node. -/
def nodeName : Node → String
  | Node.file n _ => n
  | Node.dir n _ => n

/-- JS record lookup `m[k]` (records have unique keys, so the first binding
is the binding). -/
def recGet : FS → String → Option Node
  | [], _ => none
  | p :: rest, k => if p.1 = k then some p.2 else recGet rest k

/-- JS record assignment `m[k] = v`: replaces the binding in place when the
key exists, otherwise appends it at the end. -/
def recSet : FS → String → Node → FS
  | [], k, v => [(k, v)]
  | p :: rest, k, v => if p.1 = k then (k, v) :: rest else p :: recSet rest k v

/-- JS `delete m[k]`: removes the binding for `k` (records have unique
keys, so removing every binding with that key is the same operation). -/
def recDel : FS → String → FS
  | [], _ => []
  | p :: rest, k => if p.1 = k then recDel rest k else p :: recDel rest k

/-- Walk of `getNodeFromPath` starting from an arbitrary node: descend into
directory children segment by segment; a missing child or a file node hit
before the path is exhausted yields `none` (App.tsx lines 56-66). -/
def getNodeAux : Node → List String → Option Node
  | n, [] => some n
  | Node.dir _ ch, s :: rest =>
    match recGet ch s with
    | some c => getNodeAux c rest
    | none => none
  | Node.file _ _, _ :: _ => none

/-- `getNodeFromPath(fs, path)`: starts from the synthetic root directory
`{ type: DIRECTORY, name: 'root', children: fs }`. -/
def getNodeFromPath (fs : FS) (path : List String) : Option Node :=
  getNodeAux (Node.dir "root" fs) path

/-- Rename a node (`newSourceNode.name = finalDestName`). -/
def renameNode : Node → String → Node
  | Node.file _ c, n => Node.file n c
  | Node.dir _ ch, n => Node.dir n ch

/-- Pure counterpart of `getNodeFromPath(newFS, parentPath).children[k] = v`:
returns `none` when the walk leaves the directory spine (JS `TypeError`). -/
def setChildAt : FS → List String → String → Node → Option FS
  | fs, [], k, v => some (recSet fs k v)
  | fs, p :: rest, k, v =>
    match recGet fs p with
    | some (Node.dir dn ch) => (setChildAt ch rest k v).map (fun ch2 => recSet fs p (Node.dir dn ch2))
    | _ => none

/-- Pure counterpart of `delete getNodeFromPath(newFS, parentPath).children[k]`. -/
def deleteChildAt : FS → List String → String → Option FS
  | fs, [], k => some (recDel fs k)
  | fs, p :: rest, k =>
    match recGet fs p with
    | some (Node.dir dn ch) => (deleteChildAt ch rest k).map (fun ch2 => recSet fs p (Node.dir dn ch2))
    | _ => none

/-- Pure counterpart of the editor-save mutation: find the node at `path`;
if it is a FILE, replace its content, otherwise change nothing. -/
def updateFileContentAt : FS → List String → String → FS
  | fs, [], _ => fs
  | fs, [k], c =>
    match recGet fs k with
    | some (Node.file n _) => recSet fs k (Node.file n c)
    | _ => fs
  | fs, p :: rest, c =>
    match recGet fs p with
    | some (Node.dir dn ch) => recSet fs p (Node.dir dn (updateFileContentAt ch rest c))
    | _ => fs

/-- Result record of `resolvePath` (App.tsx line 87).  The TypeScript type
casts `parent` to `DirectoryNode | null`, but the cast is compile-time
only: the stored value can be a file node, so it is modelled as
`Option Node`. -/
structure ResolveResult where
  parent : Option Node
  node : Option Node
  name : String
  fullPath : List String

/-- `path.replace(/\/$/, '').split('/').filter(p => p && p !== '.')`. -/
def pathSegmentsOf (path : String) : List String :=
  (jsSplitChar (stripTrailingSlash path) '/').filter (fun p => p != "" && p != ".")

/-- One step of the segment accumulation loop: `..` pops the last segment
if any exist, everything else is pushed. -/
def applySegment (acc : List String) (s : String) : List String :=
  if s = ".." then acc.dropLast else acc ++ [s]

/-- The `resolutionPath` accumulated by the loop in `resolvePath`
(lines 98-108): start from `[]` for absolute paths, from the base
otherwise, then fold the filtered segments. -/
def resolutionPathOf (base : List String) (path : String) : List String :=
  (pathSegmentsOf path).foldl applySegment (if jsStartsWithSlash path then [] else base)

/-- The path string handed to the recursive fallback call (line 117-118):
`path.split('/').slice(0, -1).join('/') || (isAbsolutePath ? '/' : '.')`. -/
def fallbackStr (path : String) : String :=
  let pp0 := jsJoinSlash ((jsSplitChar path '/').dropLast)
  if pp0 = "" then (if jsStartsWithSlash path then "/" else ".") else pp0

/-- `resolvePath` (App.tsx lines 87-125) with an explicit recursion budget
modelling the JS call stack.  A `none` result means the source call never
returns: when the node at the accumulated path is missing, the source
recurses on the textual parent path, and with path `"."` and a dangling
base that recursion is on `"."` itself, forever (stack overflow).  The
model returns `none` exactly when the budget runs out with that recursion
still pending, and `resolvePath` below supplies fuel
`(raw segments) + 2`, strictly more than the depth of every terminating
recursion chain: each fallback step removes one raw `/`-segment (a
single-segment relative path falls back to `"."`, `"/x"` falls back to
`"/"`), `"/"` always resolves to the synthetic root immediately, and
`"."` either resolves the base at once or never returns. -/
def resolvePathAux : Nat → FS → List String → String → Option ResolveResult
  | 0, fs, base, path =>
    if path = "" then
      some { parent := getNodeFromPath fs base.dropLast
             node := getNodeFromPath fs base
             name := (base.getLast?).getD ""
             fullPath := base }
    else
      match getNodeFromPath fs (resolutionPathOf base path) with
      | some n =>
        some { parent := getNodeFromPath fs (resolutionPathOf base path).dropLast
               node := some n
               name := ((resolutionPathOf base path).getLast?).getD ""
               fullPath := resolutionPathOf base path }
      | none => none
  | fuel + 1, fs, base, path =>
    if path = "" then
      some { parent := getNodeFromPath fs base.dropLast
             node := getNodeFromPath fs base
             name := (base.getLast?).getD ""
             fullPath := base }
    else
      match getNodeFromPath fs (resolutionPathOf base path) with
      | some n =>
        some { parent := getNodeFromPath fs (resolutionPathOf base path).dropLast
               node := some n
               name := ((resolutionPathOf base path).getLast?).getD ""
               fullPath := resolutionPathOf base path }
      | none =>
        (resolvePathAux fuel fs base (fallbackStr path)).map (fun r =>
          match r.node with
          | some (Node.dir dn dch) =>
            { parent := some (Node.dir dn dch)
              node := none
              name := ((jsSplitChar path '/').getLast?).getD ""
              fullPath := resolutionPathOf base path }
          | _ =>
            { parent := getNodeFromPath fs (resolutionPathOf base path).dropLast
              node := none
              name := ((resolutionPathOf base path).getLast?).getD ""
              fullPath := resolutionPathOf base path })

/-- `resolvePath(path, base)` with sufficient fuel; `none` when the source
call never returns. -/
def resolvePath (fs : FS) (base : List String) (path : String) : Option ResolveResult :=
  resolvePathAux ((jsSplitChar path '/').length + 2) fs base path

/-- Output and resulting tree of one command handler.  Success paths leave
`output` empty; error paths set it to the message and leave the tree
untouched. -/
structure CmdEffect where
  output : String
  fs : FS

/-- The `mkdir`/`touch` case of `handleCommand` (lines 228-253).  A `none`
result models a JS crash: either the resolver call that never returns, or
the `TypeError` thrown when the resolver returned a truthy `parent` but
the node at `fullPath.slice(0, -1)` is not a directory.  Error messages
reproduce the source wording without the surrounding quote characters. -/
def mkdirTouchCmd (action : String) (fs : FS) (cwd : List String) (args : List String) :
    Option CmdEffect :=
  let targetName := args.getD 0 ""
  if targetName = "" then some ⟨action ++ ": missing operand", fs⟩
  else
    match resolvePath fs cwd targetName with
    | none => none
    | some r =>
      match r.node with
      | some _ =>
        some ⟨action ++ ": cannot create " ++ (if action = "mkdir" then "directory " else "file ") ++
          targetName ++ ": File exists", fs⟩
      | none =>
        match r.parent with
        | some _ =>
          let newNode := if action = "mkdir" then Node.dir r.name [] else Node.file r.name ""
          (setChildAt fs r.fullPath.dropLast r.name newNode).map (fun fs2 => ⟨"", fs2⟩)
        | none =>
          some ⟨action ++ ": cannot create " ++ (if action = "mkdir" then "directory " else "file ") ++
            targetName ++ ": No such file or directory", fs⟩

/-- The `edit` case (lines 254-277), restricted to its filesystem effect
and error output (the editor-overlay open state is presentational). -/
def editCmd (fs : FS) (cwd : List String) (args : List String) : Option CmdEffect :=
  let targetName := args.getD 0 ""
  if targetName = "" then some ⟨"edit: missing operand", fs⟩
  else
    match resolvePath fs cwd targetName with
    | none => none
    | some r =>
      match r.node with
      | some (Node.file _ _) => some ⟨"", fs⟩
      | some (Node.dir _ _) => some ⟨"edit: " ++ targetName ++ ": Is a directory", fs⟩
      | none =>
        match r.parent with
        | some _ =>
          (setChildAt fs r.fullPath.dropLast r.name (Node.file r.name "")).map (fun fs2 => ⟨"", fs2⟩)
        | none => some ⟨"edit: cannot create file " ++ targetName ++ ": No such file or directory", fs⟩

/-- The write-through-redirect part of the `echo` case (lines 289-302),
after the command line has been cut at the last `>`. -/
def echoRedirect (fs : FS) (cwd : List String) (content fileName : String) : Option CmdEffect :=
  if fileName = "" then some ⟨"echo: missing output file", fs⟩
  else
    match resolvePath fs cwd fileName with
    | none => none
    | some r =>
      match r.parent with
      | some _ =>
        (setChildAt fs r.fullPath.dropLast r.name (Node.file r.name content)).map
          (fun fs2 => ⟨"", fs2⟩)
      | none => some ⟨"echo: cannot write to " ++ fileName ++ ": Invalid path", fs⟩

/-- The `echo` case (lines 278-304): `cmd.substring(5)`, cut at the last
`>`, trim and strip one layer of quotes from the text, trim the file
name, then write.  With no `>` the text is echoed back. -/
def echoCmd (fs : FS) (cwd : List String) (cmd : String) : Option CmdEffect :=
  let echoRest := jsDrop cmd 5
  match lastIndexOfChar echoRest '>' with
  | none => some ⟨echoRest, fs⟩
  | some i =>
    let content := stripOuterQuotes (jsTrim (jsTake echoRest i))
    let fileName := jsTrim (jsDrop echoRest (i + 1))
    echoRedirect fs cwd content fileName

/-- The `rm` case (lines 305-332). -/
def rmCmd (fs : FS) (cwd : List String) (args : List String) : Option CmdEffect :=
  let isRecursive := args.getD 0 "" == "-r"
  let targetPath := if isRecursive then args.getD 1 "" else args.getD 0 ""
  if targetPath = "" then some ⟨"rm: missing operand", fs⟩
  else
    match resolvePath fs cwd targetPath with
    | none => none
    | some r =>
      match r.node with
      | none => some ⟨"rm: cannot remove " ++ targetPath ++ ": No such file or directory", fs⟩
      | some (Node.dir dn ch) =>
        if ch.length > 0 && !isRecursive then
          some ⟨"rm: cannot remove " ++ targetPath ++ ": Is a directory", fs⟩
        else (deleteChildAt fs r.fullPath.dropLast dn).map (fun fs2 => ⟨"", fs2⟩)
      | some (Node.file fn _) =>
        (deleteChildAt fs r.fullPath.dropLast fn).map (fun fs2 => ⟨"", fs2⟩)

/-- The `mv`/`cp` case (lines 333-375).  The source copy is inserted under
the final destination parent first; for `mv` the source is deleted from
its original parent afterwards, on the already-updated tree.  The
destination is resolved only after the source was found, as in the
source. -/
def mvCpCmd (action : String) (fs : FS) (cwd : List String) (args : List String) :
    Option CmdEffect :=
  let sourcePath := args.getD 0 ""
  let destPath := args.getD 1 ""
  if sourcePath = "" ∨ destPath = "" then some ⟨action ++ ": missing operand", fs⟩
  else
    match resolvePath fs cwd sourcePath with
    | none => none
    | some rs =>
      match rs.node with
      | none => some ⟨action ++ ": cannot stat " ++ sourcePath ++ ": No such file or directory", fs⟩
      | some sourceNode =>
        match resolvePath fs cwd destPath with
        | none => none
        | some rd =>
          let isDirDest := match rd.node with | some (Node.dir _ _) => true | _ => false
          let finalDestParentPath := if isDirDest then rd.fullPath else rd.fullPath.dropLast
          let finalDestName := if isDirDest then nodeName sourceNode else rd.name
          let newSourceNode := renameNode sourceNode finalDestName
          match getNodeFromPath fs finalDestParentPath with
          | some (Node.dir _ _) =>
            match setChildAt fs finalDestParentPath finalDestName newSourceNode with
            | some fs2 =>
              if action = "mv" then
                (deleteChildAt fs2 rs.fullPath.dropLast (nodeName sourceNode)).map
                  (fun fs3 => ⟨"", fs3⟩)
              else some ⟨"", fs2⟩
            | none => none
          | _ => some ⟨action ++ ": cannot move to " ++ destPath ++ ": No such file or directory", fs⟩

/-- Line selection of the `grep` case (line 384):
`node.content.split('\n').filter(line => line.includes(pattern))` —
a case-sensitive substring test per line. -/
def grepMatches (content pattern : String) : List String :=
  (jsSplitChar content '\n').filter (fun line => jsIncludes line pattern)

/-- The `grep` case (lines 376-405): output is the selected lines joined by
newlines (highlighting is presentational). -/
def grepCmd (fs : FS) (cwd : List String) (args : List String) : Option CmdEffect :=
  let pattern := args.getD 0 ""
  let filePath := args.getD 1 ""
  if pattern = "" ∨ filePath = "" then some ⟨"usage: grep [pattern] [file]", fs⟩
  else
    match resolvePath fs cwd filePath with
    | none => none
    | some r =>
      match r.node with
      | some (Node.file _ c) => some ⟨String.intercalate "\n" (grepMatches c pattern), fs⟩
      | _ => some ⟨"grep: " ++ filePath ++ ": No such file or directory", fs⟩

/-- The `cat` branch of the cat/head/tail case (lines 202-227): full file
content, or the directory / not-found errors. -/
def catCmd (fs : FS) (cwd : List String) (args : List String) : Option CmdEffect :=
  let a := args.getD 0 ""
  if a = "" then some ⟨"cat: missing file operand", fs⟩
  else
    match resolvePath fs cwd a with
    | none => none
    | some r =>
      match r.node with
      | some (Node.file _ c) => some ⟨c, fs⟩
      | some (Node.dir _ _) => some ⟨"cat: " ++ a ++ ": Is a directory", fs⟩
      | none => some ⟨"cat: " ++ a ++ ": No such file or directory", fs⟩

/-- `handleSaveFile` (App.tsx lines 459-469): the Editor Overlay save
callback.  It strips the leading slash from the absolute editor path and
resolves the remainder — relative to the current directory — then writes
the content only when the resolved node is a FILE. -/
def handleSaveFile (fs : FS) (cwd : List String) (filePath content : String) : Option FS :=
  match resolvePath fs cwd (jsDrop filePath 1) with
  | none => none
  | some r =>
    some (if r.fullPath.length > 0 then updateFileContentAt fs r.fullPath content else fs)

/-- The README.md FILE node of `INITIAL_FILESYSTEM` (constants.ts). -/
def readmeNode : Node :=
  Node.file "README.md"
    "Hello! This is a README file. You can edit it using the `edit` command."

/-- The example.py FILE node of `INITIAL_FILESYSTEM` (constants.ts). -/
def examplePyNode : Node :=
  Node.file "example.py"
    "def factorial(n):\n    if n == 0:\n        return 1\n    else:\n        return n * factorial(n-1)\n\nprint(f\"The factorial of 5 is {factorial(5)}\")\n"

/-- The `/home/user` directory of `INITIAL_FILESYSTEM`. -/
def userNode : Node :=
  Node.dir "user" [("README.md", readmeNode), ("example.py", examplePyNode)]

/-- `INITIAL_FILESYSTEM` from constants.ts. -/
def initialFS : FS :=
  [("home", Node.dir "home" [("user", userNode)])]

/-- Small filesystem with one FILE `f.txt` at the root, used to instantiate
the C3 amended theorem. -/
def fsWithFile : FS := [("f.txt", Node.file "f.txt" "z")]

/-- Filesystem with a directory `a` containing a subdirectory `sub`, used
to refute C5 as originally stated. -/
def fsNested : FS := [("a", Node.dir "a" [("sub", Node.dir "sub" [])])]

/-! ### Record-level lemmas -/

theorem recGet_recSet_self (m : FS) (k : String) (v : Node) :
    recGet (recSet m k v) k = some v := by
  induction m with
  | nil => simp [recGet, recSet]
  | cons p rest ih =>
    by_cases h : p.1 = k
    · simp [recGet, recSet, h]
    · simp [recGet, recSet, h, ih]

theorem recGet_recSet_ne (m : FS) (k k' : String) (v : Node) (h : k' ≠ k) :
    recGet (recSet m k v) k' = recGet m k' := by
  induction m with
  | nil => simp [recGet, recSet, Ne.symm h]
  | cons p rest ih =>
    by_cases hp : p.1 = k
    · subst hp
      simp [recGet, recSet, Ne.symm h]
    · by_cases hp' : p.1 = k'
      · simp [recGet, recSet, hp, hp', h]
      · simp [recGet, recSet, hp, hp', ih]

theorem recGet_recDel_self (m : FS) (k : String) :
    recGet (recDel m k) k = none := by
  induction m with
  | nil => simp [recGet, recDel]
  | cons p rest ih =>
    by_cases hp : p.1 = k
    · simp [recGet, recDel, hp, ih]
    · simp [recGet, recDel, hp, ih]

theorem recGet_recDel_ne (m : FS) (k k' : String) (h : k' ≠ k) :
    recGet (recDel m k) k' = recGet m k' := by
  induction m with
  | nil => simp [recGet, recDel]
  | cons p rest ih =>
    by_cases hp : p.1 = k
    · subst hp
      simp [recGet, recDel, Ne.symm h, ih]
    · by_cases hp' : p.1 = k'
      · simp [recGet, recDel, hp, hp', h]
      · simp [recGet, recDel, hp, hp', ih]

/-! ### Path-walk lemmas -/

theorem getNodeAux_append (p q : List String) (n : Node) :
    getNodeAux n (p ++ q) = (getNodeAux n p).bind (fun m => getNodeAux m q) := by
  induction p generalizing n with
  | nil => simp [getNodeAux]
  | cons s rest ih =>
    cases n with
    | file a b => simp [getNodeAux]
    | dir a ch =>
      simp only [List.cons_append, getNodeAux]
      cases recGet ch s with
      | none => simp
      | some c => simp [ih]

theorem getNodeFromPath_append (fs : FS) (p q : List String) :
    getNodeFromPath fs (p ++ q) = (getNodeFromPath fs p).bind (fun m => getNodeAux m q) := by
  simp [getNodeFromPath, getNodeAux_append]

theorem getNodeFromPath_cons (fs : FS) (s : String) (r : List String) :
    getNodeFromPath fs (s :: r) = (recGet fs s).bind (fun c => getNodeAux c r) := by
  cases hrec : recGet fs s <;> simp [getNodeFromPath, getNodeAux, hrec]

theorem getNodeAux_dir_ne_nil (n : String) (ch : FS) (l : List String) (h : l ≠ []) :
    getNodeAux (Node.dir n ch) l = getNodeFromPath ch l := by
  cases l with
  | nil => exact absurd rfl h
  | cons s r => rfl

theorem getNodeAux_file (a b : String) (l : List String) (h : l ≠ []) :
    getNodeAux (Node.file a b) l = none := by
  cases l with
  | nil => exact absurd rfl h
  | cons s r => simp [getNodeAux]

theorem getNodeFromPath_concat_some (fs : FS) (p : List String) (k : String) (n : Node)
    (h : getNodeFromPath fs (p ++ [k]) = some n) :
    ∃ dn ch, getNodeFromPath fs p = some (Node.dir dn ch) ∧ recGet ch k = some n := by
  rw [getNodeFromPath_append] at h
  cases hm : getNodeFromPath fs p with
  | none => rw [hm] at h; simp at h
  | some m =>
    rw [hm] at h
    simp only [Option.some_bind] at h
    cases m with
    | file a b => rw [getNodeAux_file a b [k] (by simp)] at h; exact absurd h (by simp)
    | dir dn ch =>
      refine ⟨dn, ch, rfl, ?_⟩
      simp only [getNodeAux] at h
      cases hg : recGet ch k with
      | none => rw [hg] at h; exact absurd h (by simp)
      | some c => rw [hg] at h; simpa [getNodeAux] using h

/-! ### Mutation lemmas -/

theorem setChildAt_cons_dir (fs : FS) (s : String) (r : List String) (k : String) (v : Node)
    (cn : String) (cch : FS) (hg : recGet fs s = some (Node.dir cn cch)) :
    setChildAt fs (s :: r) k v = (setChildAt cch r k v).map (fun ch2 => recSet fs s (Node.dir cn ch2)) := by
  simp [setChildAt, hg]

theorem deleteChildAt_cons_dir (fs : FS) (s : String) (r : List String) (k : String)
    (cn : String) (cch : FS) (hg : recGet fs s = some (Node.dir cn cch)) :
    deleteChildAt fs (s :: r) k = (deleteChildAt cch r k).map (fun ch2 => recSet fs s (Node.dir cn ch2)) := by
  simp [deleteChildAt, hg]

theorem setChildAt_isSome_of_dir (p : List String) (fs : FS) (dn : String) (ch : FS)
    (k : String) (v : Node) (h : getNodeFromPath fs p = some (Node.dir dn ch)) :
    ∃ fs2, setChildAt fs p k v = some fs2 := by
  induction p generalizing fs dn ch with
  | nil => exact ⟨recSet fs k v, rfl⟩
  | cons s r ih =>
    rw [getNodeFromPath_cons] at h
    cases hg : recGet fs s with
    | none => rw [hg] at h; exact absurd h (by simp)
    | some c =>
      rw [hg] at h
      simp only [Option.some_bind] at h
      cases c with
      | file a b =>
        rw [getNodeAux_file a b r (by rintro rfl; simp [getNodeAux] at h)] at h
        exact absurd h (by simp)
      | dir cn cch =>
        cases r with
        | nil =>
          exact ⟨recSet fs s (Node.dir cn (recSet cch k v)),
            by rw [setChildAt_cons_dir fs s [] k v cn cch hg]; rfl⟩
        | cons r0 rr =>
          rw [getNodeAux_dir_ne_nil cn cch (r0 :: rr) (by simp)] at h
          obtain ⟨ch2, hch2⟩ := ih cch dn ch h
          exact ⟨recSet fs s (Node.dir cn ch2),
            by rw [setChildAt_cons_dir fs s (r0 :: rr) k v cn cch hg, hch2]; rfl⟩

theorem deleteChildAt_isSome_of_dir (p : List String) (fs : FS) (dn : String) (ch : FS)
    (k : String) (h : getNodeFromPath fs p = some (Node.dir dn ch)) :
    ∃ fs2, deleteChildAt fs p k = some fs2 := by
  induction p generalizing fs dn ch with
  | nil => exact ⟨recDel fs k, rfl⟩
  | cons s r ih =>
    rw [getNodeFromPath_cons] at h
    cases hg : recGet fs s with
    | none => rw [hg] at h; exact absurd h (by simp)
    | some c =>
      rw [hg] at h
      simp only [Option.some_bind] at h
      cases c with
      | file a b =>
        rw [getNodeAux_file a b r (by rintro rfl; simp [getNodeAux] at h)] at h
        exact absurd h (by simp)
      | dir cn cch =>
        cases r with
        | nil =>
          exact ⟨recSet fs s (Node.dir cn (recDel cch k)),
            by rw [deleteChildAt_cons_dir fs s [] k cn cch hg]; rfl⟩
        | cons r0 rr =>
          rw [getNodeAux_dir_ne_nil cn cch (r0 :: rr) (by simp)] at h
          obtain ⟨ch2, hch2⟩ := ih cch dn ch h
          exact ⟨recSet fs s (Node.dir cn ch2),
            by rw [deleteChildAt_cons_dir fs s (r0 :: rr) k cn cch hg, hch2]; rfl⟩

theorem setChildAt_cons_inv (fs fs2 : FS) (s : String) (r : List String) (k : String) (v : Node)
    (h : setChildAt fs (s :: r) k v = some fs2) :
    ∃ cn cch ch2, recGet fs s = some (Node.dir cn cch) ∧ setChildAt cch r k v = some ch2 ∧
      fs2 = recSet fs s (Node.dir cn ch2) := by
  cases hg : recGet fs s with
  | none => simp [setChildAt, hg] at h
  | some c =>
    cases c with
    | file a b => simp [setChildAt, hg] at h
    | dir cn cch =>
      rw [setChildAt_cons_dir fs s r k v cn cch hg] at h
      cases hrec : setChildAt cch r k v with
      | none => rw [hrec] at h; exact absurd h (by simp)
      | some ch2 =>
        rw [hrec] at h
        simp only [Option.map_some'] at h
        injection h with h
        exact ⟨cn, cch, ch2, rfl, hrec, h.symm⟩

theorem deleteChildAt_cons_inv (fs fs2 : FS) (s : String) (r : List String) (k : String)
    (h : deleteChildAt fs (s :: r) k = some fs2) :
    ∃ cn cch ch2, recGet fs s = some (Node.dir cn cch) ∧ deleteChildAt cch r k = some ch2 ∧
      fs2 = recSet fs s (Node.dir cn ch2) := by
  cases hg : recGet fs s with
  | none => simp [deleteChildAt, hg] at h
  | some c =>
    cases c with
    | file a b => simp [deleteChildAt, hg] at h
    | dir cn cch =>
      rw [deleteChildAt_cons_dir fs s r k cn cch hg] at h
      cases hrec : deleteChildAt cch r k with
      | none => rw [hrec] at h; exact absurd h (by simp)
      | some ch2 =>
        rw [hrec] at h
        simp only [Option.map_some'] at h
        injection h with h
        exact ⟨cn, cch, ch2, rfl, hrec, h.symm⟩

theorem getNodeFromPath_setChildAt_concat (p : List String) (fs fs2 : FS) (k : String) (v : Node)
    (h : setChildAt fs p k v = some fs2) :
    getNodeFromPath fs2 (p ++ [k]) = some v := by
  induction p generalizing fs fs2 with
  | nil =>
    injection h with h
    subst h
    simp [getNodeFromPath_cons, recGet_recSet_self, getNodeAux]
  | cons s r ih =>
    obtain ⟨cn, cch, ch2, hg, hrec, rfl⟩ := setChildAt_cons_inv fs fs2 s r k v h
    rw [List.cons_append, getNodeFromPath_cons, recGet_recSet_self]
    simp only [Option.some_bind]
    rw [getNodeAux_dir_ne_nil cn ch2 (r ++ [k]) (by simp)]
    exact ih cch ch2 hrec

theorem getNodeFromPath_deleteChildAt_concat (p : List String) (fs fs2 : FS) (k : String)
    (h : deleteChildAt fs p k = some fs2) :
    getNodeFromPath fs2 (p ++ [k]) = none := by
  induction p generalizing fs fs2 with
  | nil =>
    injection h with h
    subst h
    simp [getNodeFromPath_cons, recGet_recDel_self]
  | cons s r ih =>
    obtain ⟨cn, cch, ch2, hg, hrec, rfl⟩ := deleteChildAt_cons_inv fs fs2 s r k h
    rw [List.cons_append, getNodeFromPath_cons, recGet_recSet_self]
    simp only [Option.some_bind]
    rw [getNodeAux_dir_ne_nil cn ch2 (r ++ [k]) (by simp)]
    exact ih cch ch2 hrec

theorem getNodeFromPath_setChildAt_frame (p : List String) (fs fs2 : FS) (k : String) (v : Node)
    (h : setChildAt fs p k v = some fs2) (q : List String)
    (hq1 : ¬ q <+: p) (hq2 : ¬ (p ++ [k]) <+: q) :
    getNodeFromPath fs2 q = getNodeFromPath fs q := by
  induction p generalizing fs fs2 q with
  | nil =>
    injection h with h
    subst h
    cases q with
    | nil => exact absurd ⟨[], rfl⟩ hq1
    | cons s qr =>
      have hsk : s ≠ k := by
        rintro rfl
        exact hq2 (by rw [List.nil_append]; exact (List.cons_prefix_cons).2 ⟨rfl, ⟨qr, rfl⟩⟩)
      rw [getNodeFromPath_cons, getNodeFromPath_cons, recGet_recSet_ne fs k s v hsk]
  | cons s0 r0 ih =>
    obtain ⟨cn, cch, ch2, hg, hrec, rfl⟩ := setChildAt_cons_inv fs fs2 s0 r0 k v h
    cases q with
    | nil => exact absurd ⟨s0 :: r0, rfl⟩ hq1
    | cons s qr =>
      by_cases hss : s = s0
      · subst hss
        have hqr1 : ¬ qr <+: r0 := fun hh => hq1 ((List.cons_prefix_cons).2 ⟨rfl, hh⟩)
        have hqr2 : ¬ (r0 ++ [k]) <+: qr := fun hh =>
          hq2 (by rw [List.cons_append]; exact (List.cons_prefix_cons).2 ⟨rfl, hh⟩)
        have hqrne : qr ≠ [] := by
          rintro rfl
          exact hqr1 ⟨r0, rfl⟩
        rw [getNodeFromPath_cons, getNodeFromPath_cons, recGet_recSet_self, hg]
        simp only [Option.some_bind]
        rw [getNodeAux_dir_ne_nil cn ch2 qr hqrne, getNodeAux_dir_ne_nil cn cch qr hqrne]
        exact ih cch ch2 hrec qr hqr1 hqr2
      · rw [getNodeFromPath_cons, getNodeFromPath_cons,
          recGet_recSet_ne fs s0 s (Node.dir cn ch2) hss]

theorem getNodeFromPath_deleteChildAt_frame (p : List String) (fs fs2 : FS) (k : String)
    (h : deleteChildAt fs p k = some fs2) (q : List String)
    (hq1 : ¬ q <+: p) (hq2 : ¬ (p ++ [k]) <+: q) :
    getNodeFromPath fs2 q = getNodeFromPath fs q := by
  induction p generalizing fs fs2 q with
  | nil =>
    injection h with h
    subst h
    cases q with
    | nil => exact absurd ⟨[], rfl⟩ hq1
    | cons s qr =>
      have hsk : s ≠ k := by
        rintro rfl
        exact hq2 (by rw [List.nil_append]; exact (List.cons_prefix_cons).2 ⟨rfl, ⟨qr, rfl⟩⟩)
      rw [getNodeFromPath_cons, getNodeFromPath_cons, recGet_recDel_ne fs k s hsk]
  | cons s0 r0 ih =>
    obtain ⟨cn, cch, ch2, hg, hrec, rfl⟩ := deleteChildAt_cons_inv fs fs2 s0 r0 k h
    cases q with
    | nil => exact absurd ⟨s0 :: r0, rfl⟩ hq1
    | cons s qr =>
      by_cases hss : s = s0
      · subst hss
        have hqr1 : ¬ qr <+: r0 := fun hh => hq1 ((List.cons_prefix_cons).2 ⟨rfl, hh⟩)
        have hqr2 : ¬ (r0 ++ [k]) <+: qr := fun hh =>
          hq2 (by rw [List.cons_append]; exact (List.cons_prefix_cons).2 ⟨rfl, hh⟩)
        have hqrne : qr ≠ [] := by
          rintro rfl
          exact hqr1 ⟨r0, rfl⟩
        rw [getNodeFromPath_cons, getNodeFromPath_cons, recGet_recSet_self, hg]
        simp only [Option.some_bind]
        rw [getNodeAux_dir_ne_nil cn ch2 qr hqrne, getNodeAux_dir_ne_nil cn cch qr hqrne]
        exact ih cch ch2 hrec qr hqr1 hqr2
      · rw [getNodeFromPath_cons, getNodeFromPath_cons,
          recGet_recSet_ne fs s0 s (Node.dir cn ch2) hss]

theorem setChildAt_spine_dir (p : List String) (fs fs2 : FS) (k : String) (v : Node)
    (h : setChildAt fs p k v = some fs2) (q : List String) (hq : q <+: p) :
    ∃ dn2 ch2, getNodeFromPath fs2 q = some (Node.dir dn2 ch2) := by
  induction p generalizing fs fs2 q with
  | nil =>
    obtain ⟨t, ht⟩ := hq
    obtain rfl : q = [] := (List.append_eq_nil.mp ht).1
    exact ⟨"root", fs2, rfl⟩
  | cons s0 r0 ih =>
    obtain ⟨cn, cch, ch2, hg, hrec, rfl⟩ := setChildAt_cons_inv fs fs2 s0 r0 k v h
    cases q with
    | nil => exact ⟨"root", recSet fs s0 (Node.dir cn ch2), rfl⟩
    | cons s qr =>
      obtain ⟨rfl, hqr⟩ := (List.cons_prefix_cons).1 hq
      rw [getNodeFromPath_cons, recGet_recSet_self]
      simp only [Option.some_bind]
      cases qr with
      | nil => exact ⟨cn, ch2, by simp [getNodeAux]⟩
      | cons a b =>
        rw [getNodeAux_dir_ne_nil cn ch2 (a :: b) (by simp)]
        exact ih cch ch2 hrec (a :: b) hqr

/-! ### Resolver branch lemmas -/

theorem resolvePathAux_empty (fuel : Nat) (fs : FS) (base : List String) :
    resolvePathAux fuel fs base "" =
      some ⟨getNodeFromPath fs base.dropLast, getNodeFromPath fs base,
        (base.getLast?).getD "", base⟩ := by
  cases fuel with
  | zero =>
    conv_lhs => unfold resolvePathAux
    exact if_pos rfl
  | succ fuel' =>
    conv_lhs => unfold resolvePathAux
    exact if_pos rfl

theorem resolvePathAux_main (fuel : Nat) (fs : FS) (base : List String) (path : String)
    (hne : path ≠ "") (n : Node) (h : getNodeFromPath fs (resolutionPathOf base path) = some n) :
    resolvePathAux fuel fs base path =
      some ⟨getNodeFromPath fs (resolutionPathOf base path).dropLast, some n,
        ((resolutionPathOf base path).getLast?).getD "", resolutionPathOf base path⟩ := by
  cases fuel with
  | zero =>
    conv_lhs => unfold resolvePathAux
    rw [if_neg hne, h]
  | succ fuel' =>
    conv_lhs => unfold resolvePathAux
    rw [if_neg hne, h]

theorem resolvePathAux_zero_crash (fs : FS) (base : List String) (path : String)
    (hne : path ≠ "") (h : getNodeFromPath fs (resolutionPathOf base path) = none) :
    resolvePathAux 0 fs base path = none := by
  conv_lhs => unfold resolvePathAux
  rw [if_neg hne, h]

theorem resolvePathAux_fb_crash (fuel : Nat) (fs : FS) (base : List String) (path : String)
    (hne : path ≠ "") (h : getNodeFromPath fs (resolutionPathOf base path) = none)
    (hfb : resolvePathAux fuel fs base (fallbackStr path) = none) :
    resolvePathAux (fuel + 1) fs base path = none := by
  conv_lhs => unfold resolvePathAux
  rw [if_neg hne, h, hfb]
  rfl

theorem resolvePathAux_fb_dir (fuel : Nat) (fs : FS) (base : List String) (path : String)
    (hne : path ≠ "") (h : getNodeFromPath fs (resolutionPathOf base path) = none)
    (r2 : ResolveResult) (hfb : resolvePathAux fuel fs base (fallbackStr path) = some r2)
    (dn : String) (dch : FS) (hdir : r2.node = some (Node.dir dn dch)) :
    resolvePathAux (fuel + 1) fs base path =
      some ⟨some (Node.dir dn dch), none, ((jsSplitChar path '/').getLast?).getD "",
        resolutionPathOf base path⟩ := by
  conv_lhs => unfold resolvePathAux
  rw [if_neg hne, h]
  simp only [hfb, Option.map_some', hdir]

theorem resolvePathAux_fb_other (fuel : Nat) (fs : FS) (base : List String) (path : String)
    (hne : path ≠ "") (h : getNodeFromPath fs (resolutionPathOf base path) = none)
    (r2 : ResolveResult) (hfb : resolvePathAux fuel fs base (fallbackStr path) = some r2)
    (hnd : ∀ dn dch, r2.node ≠ some (Node.dir dn dch)) :
    resolvePathAux (fuel + 1) fs base path =
      some ⟨getNodeFromPath fs (resolutionPathOf base path).dropLast, none,
        ((resolutionPathOf base path).getLast?).getD "", resolutionPathOf base path⟩ := by
  conv_lhs => unfold resolvePathAux
  rw [if_neg hne, h]
  cases hn : r2.node with
  | none => simp only [hfb, Option.map_some', hn]
  | some m =>
    cases m with
    | file a b => simp only [hfb, Option.map_some', hn]
    | dir dn dch => exact absurd hn (hnd dn dch)

/-- Master branch characterization: whatever a returning call of the
resolver produced, its components satisfy these equations. -/
theorem resolve_cases (fuel : Nat) (fs : FS) (base : List String) (path : String)
    (hne : path ≠ "") (r : ResolveResult)
    (h : resolvePathAux fuel fs base path = some r) :
    r.fullPath = resolutionPathOf base path ∧
    r.node = getNodeFromPath fs (resolutionPathOf base path) ∧
    (r.parent = getNodeFromPath fs (resolutionPathOf base path).dropLast ∨
      (getNodeFromPath fs (resolutionPathOf base path) = none ∧
        ∃ dn dch, r.parent = some (Node.dir dn dch))) ∧
    (∀ n, r.node = some n → r.name = ((resolutionPathOf base path).getLast?).getD "") := by
  cases hg : getNodeFromPath fs (resolutionPathOf base path) with
  | some n =>
    rw [resolvePathAux_main fuel fs base path hne n hg] at h
    injection h with h2
    subst h2
    exact ⟨rfl, rfl, Or.inl rfl, fun _ _ => rfl⟩
  | none =>
    cases fuel with
    | zero =>
      rw [resolvePathAux_zero_crash fs base path hne hg] at h
      exact Option.noConfusion h
    | succ fuel' =>
      cases hfb : resolvePathAux fuel' fs base (fallbackStr path) with
      | none =>
        rw [resolvePathAux_fb_crash fuel' fs base path hne hg hfb] at h
        exact Option.noConfusion h
      | some r2 =>
        cases hn : r2.node with
        | none =>
          rw [resolvePathAux_fb_other fuel' fs base path hne hg r2 hfb
            (fun dn dch hc => by rw [hn] at hc; exact Option.noConfusion hc)] at h
          injection h with h2
          subst h2
          exact ⟨rfl, rfl, Or.inl rfl, fun n hn2 => absurd hn2 (by simp)⟩
        | some m =>
          cases m with
          | file a b =>
            rw [resolvePathAux_fb_other fuel' fs base path hne hg r2 hfb
              (fun dn dch hc => by
                rw [hn] at hc
                exact Node.noConfusion (Option.some.inj hc))] at h
            injection h with h2
            subst h2
            exact ⟨rfl, rfl, Or.inl rfl, fun n hn2 => absurd hn2 (by simp)⟩
          | dir dn dch =>
            rw [resolvePathAux_fb_dir fuel' fs base path hne hg r2 hfb dn dch hn] at h
            injection h with h2
            subst h2
            exact ⟨rfl, rfl, Or.inr ⟨rfl, dn, dch, rfl⟩, fun n hn2 => absurd hn2 (by simp)⟩

/-! ### Wrapper lemmas for `resolvePath` and a string helper -/

theorem resolvePath_fullPath (fs : FS) (base : List String) (path : String)
    (r : ResolveResult) (hne : path ≠ "") (h : resolvePath fs base path = some r) :
    r.fullPath = resolutionPathOf base path :=
  (resolve_cases ((jsSplitChar path '/').length + 2) fs base path hne r h).1

theorem resolvePath_node_eq (fs : FS) (base : List String) (path : String)
    (r : ResolveResult) (h : resolvePath fs base path = some r) :
    r.node = getNodeFromPath fs r.fullPath := by
  by_cases hne : path = ""
  · subst hne
    rw [show resolvePath fs base "" = resolvePathAux 3 fs base "" from rfl,
      resolvePathAux_empty 3 fs base] at h
    injection h with h2
    subst h2
    rfl
  · have hc := resolve_cases ((jsSplitChar path '/').length + 2) fs base path hne r h
    rw [hc.1]
    exact hc.2.1

theorem resolvePath_parent_of_node_some (fs : FS) (base : List String) (path : String)
    (r : ResolveResult) (n : Node) (h : resolvePath fs base path = some r)
    (hn : r.node = some n) :
    r.parent = getNodeFromPath fs r.fullPath.dropLast := by
  by_cases hne : path = ""
  · subst hne
    rw [show resolvePath fs base "" = resolvePathAux 3 fs base "" from rfl,
      resolvePathAux_empty 3 fs base] at h
    injection h with h2
    subst h2
    rfl
  · have hc := resolve_cases ((jsSplitChar path '/').length + 2) fs base path hne r h
    rw [hc.1]
    rcases hc.2.2.1 with hp | ⟨hnone, _⟩
    · exact hp
    · rw [hc.2.1, hnone] at hn
      exact Option.noConfusion hn

theorem resolvePath_name_of_node_some (fs : FS) (base : List String) (path : String)
    (r : ResolveResult) (n : Node) (h : resolvePath fs base path = some r)
    (hn : r.node = some n) :
    r.name = (r.fullPath.getLast?).getD "" := by
  by_cases hne : path = ""
  · subst hne
    rw [show resolvePath fs base "" = resolvePathAux 3 fs base "" from rfl,
      resolvePathAux_empty 3 fs base] at h
    injection h with h2
    subst h2
    rfl
  · have hc := resolve_cases ((jsSplitChar path '/').length + 2) fs base path hne r h
    rw [hc.1]
    exact hc.2.2.2 n hn

theorem resolvePath_parent_none_dropLast (fs : FS) (base : List String) (path : String)
    (r : ResolveResult) (h : resolvePath fs base path = some r) (hp : r.parent = none) :
    getNodeFromPath fs r.fullPath.dropLast = none := by
  by_cases hne : path = ""
  · subst hne
    rw [show resolvePath fs base "" = resolvePathAux 3 fs base "" from rfl,
      resolvePathAux_empty 3 fs base] at h
    injection h with h2
    subst h2
    exact hp
  · have hc := resolve_cases ((jsSplitChar path '/').length + 2) fs base path hne r h
    rcases hc.2.2.1 with hpar | ⟨h1, dn, dch, hpar⟩
    · rw [hc.1, ← hpar]
      exact hp
    · rw [hpar] at hp
      exact Option.noConfusion hp

theorem str_append_ne_left (a b : String) (ha : a ≠ "") : a ++ b ≠ "" := by
  cases a with
  | mk la =>
    cases b with
    | mk lb =>
      intro hc
      have hd : la ++ lb = ([] : List Char) := congrArg String.data hc
      obtain ⟨h1, h2⟩ := List.append_eq_nil.mp hd
      exact ha (congrArg String.mk h1)


theorem renameNode_self (n : Node) : renameNode n (nodeName n) = n := by
  cases n <;> rfl

/-- C10: `mv a dest` where `dest` resolves to the directory already
containing `a` first overwrites `a` with its own copy and then deletes it
from that same parent, so afterwards the node is gone from its position
and nothing else in the tree has changed — the node is removed entirely. -/

theorem pfx_snoc_cases {α : Type} (l m : List α) (x : α) (h : l <+: m ++ [x]) :
    l <+: m ∨ l = m ++ [x] := by
  obtain ⟨t, ht⟩ := h
  rcases List.eq_nil_or_concat' t with rfl | ⟨t', x', rfl⟩
  · rw [List.append_nil] at ht
    exact Or.inr ht
  · left
    rw [← List.append_assoc] at ht
    have h1 := congrArg List.dropLast ht
    rw [List.dropLast_concat, List.dropLast_concat] at h1
    exact ⟨t', h1⟩

theorem pfx_of_pfx_dropLast {α : Type} (l p : List α) (x : α)
    (hEq : p.dropLast ++ [x] = p) (h : l <+: p.dropLast) : l <+: p := by
  obtain ⟨t, ht⟩ := h
  exact ⟨t ++ [x], by rw [← List.append_assoc, ht, hEq]⟩

/-! ### Small list lemmas -/

theorem head?_mem_of_eq {α : Type} (l : List α) (a : α) (h : l.head? = some a) : a ∈ l := by
  cases l with
  | nil => exact Option.noConfusion h
  | cons x xs =>
    injection h with h2
    subst h2
    exact List.mem_cons_self x xs

theorem getLast?_mem_of_eq {α : Type} (l : List α) (a : α) (h : l.getLast? = some a) : a ∈ l := by
  rcases List.eq_nil_or_concat' l with rfl | ⟨l2, b, rfl⟩
  · exact Option.noConfusion h
  · rw [List.getLast?_concat] at h
    injection h with h2
    subst h2
    exact List.mem_append_right l2 (List.mem_cons_self b [])

theorem head?_append_left {α : Type} (l l2 : List α) (h : l ≠ []) :
    (l ++ l2).head? = l.head? := by
  cases l with
  | nil => exact absurd rfl h
  | cons x xs => rfl

theorem getLast?_append_right {α : Type} (l l2 : List α) (h : l2 ≠ []) :
    (l ++ l2).getLast? = l2.getLast? := by
  rcases List.eq_nil_or_concat' l2 with rfl | ⟨m, b, rfl⟩
  · exact absurd rfl h
  · rw [← List.append_assoc, List.getLast?_concat, List.getLast?_concat]

theorem dropLast_pfx {α : Type} (l : List α) : l.dropLast <+: l := by
  rcases List.eq_nil_or_concat' l with rfl | ⟨m, b, rfl⟩
  · exact ⟨[], rfl⟩
  · rw [List.dropLast_concat]
    exact ⟨[b], rfl⟩

theorem pfx_length_le {α : Type} (l m : List α) (h : l <+: m) : l.length ≤ m.length := by
  obtain ⟨t, rfl⟩ := h
  rw [List.length_append]
  exact Nat.le_add_right _ _

theorem pfx_trans {α : Type} (a b c : List α) (h1 : a <+: b) (h2 : b <+: c) : a <+: c := by
  obtain ⟨t1, rfl⟩ := h1
  obtain ⟨t2, rfl⟩ := h2
  exact ⟨t1 ++ t2, (List.append_assoc a t1 t2).symm⟩

theorem pfx_proper_dropLast {α : Type} (q l : List α) (h : q <+: l) (hne : q ≠ l) :
    q <+: l.dropLast := by
  obtain ⟨t, rfl⟩ := h
  rcases List.eq_nil_or_concat' t with rfl | ⟨t2, x, rfl⟩
  · exact absurd (List.append_nil q).symm hne
  · rw [← List.append_assoc, List.dropLast_concat]
    exact ⟨t2, rfl⟩

theorem pfx_eq_of_length {α : Type} (q l : List α) (h : q <+: l) (hlen : q.length = l.length) :
    q = l := by
  obtain ⟨t, rfl⟩ := h
  rw [List.length_append] at hlen
  have ht : t = [] := List.length_eq_zero.mp (by omega)
  rw [ht, List.append_nil]

/-- Walking through an existing FILE node strictly inside a path yields
nothing at the longer path. -/
theorem getNode_none_of_file_proper_pfx (fs : FS) (q l : List String) (nm c : String)
    (hfile : getNodeFromPath fs q = some (Node.file nm c)) (hq : q <+: l) (hne : q ≠ l) :
    getNodeFromPath fs l = none := by
  obtain ⟨t, rfl⟩ := hq
  have ht : t ≠ [] := by
    rintro rfl
    exact hne (List.append_nil q).symm
  rw [getNodeFromPath_append fs q t, hfile, Option.some_bind]
  exact getNodeAux_file nm c t ht

/-! ### Split/join lemmas -/

theorem joinCharList_cons_cons (c : Char) (x y : List Char) (l : List (List Char)) :
    joinCharList c (x :: y :: l) = x ++ c :: joinCharList c (y :: l) := rfl

theorem splitCharList_nil_eq (c : Char) : splitCharList c [] = [[]] := rfl

theorem splitCharList_cons_self (c : Char) (xs : List Char) :
    splitCharList c (c :: xs) = [] :: splitCharList c xs := by
  conv_lhs => unfold splitCharList
  rw [if_pos rfl]

theorem splitCharList_cons_of_ne (c x : Char) (xs : List Char) (hx : x ≠ c)
    (h : List Char) (t : List (List Char)) (hs : splitCharList c xs = h :: t) :
    splitCharList c (x :: xs) = (x :: h) :: t := by
  conv_lhs => unfold splitCharList
  rw [if_neg hx, hs]

theorem splitCharList_ne_nil (c : Char) (l : List Char) : splitCharList c l ≠ [] := by
  induction l with
  | nil =>
    rw [splitCharList_nil_eq]
    exact List.cons_ne_nil _ _
  | cons x xs ih =>
    by_cases hx : x = c
    · subst hx
      rw [splitCharList_cons_self]
      exact List.cons_ne_nil _ _
    · cases hs : splitCharList c xs with
      | nil => exact absurd hs ih
      | cons h t =>
        rw [splitCharList_cons_of_ne c x xs hx h t hs]
        exact List.cons_ne_nil _ _

theorem splitCharList_not_mem (c : Char) (l : List Char) :
    ∀ y ∈ splitCharList c l, c ∉ y := by
  induction l with
  | nil =>
    intro y hy
    rw [splitCharList_nil_eq, List.mem_singleton] at hy
    subst hy
    exact List.not_mem_nil c
  | cons x xs ih =>
    intro y hy
    by_cases hx : x = c
    · subst hx
      rw [splitCharList_cons_self] at hy
      rcases List.mem_cons.mp hy with rfl | hy2
      · exact List.not_mem_nil x
      · exact ih y hy2
    · cases hs : splitCharList c xs with
      | nil => exact absurd hs (splitCharList_ne_nil c xs)
      | cons h t =>
        rw [splitCharList_cons_of_ne c x xs hx h t hs] at hy
        rcases List.mem_cons.mp hy with rfl | hy2
        · intro hc
          rcases List.mem_cons.mp hc with hc1 | hc2
          · exact hx hc1.symm
          · exact ih h (by rw [hs]; exact List.mem_cons_self h t) hc2
        · exact ih y (by rw [hs]; exact List.mem_cons_of_mem h hy2)

theorem joinCharList_splitCharList (c : Char) (l : List Char) :
    joinCharList c (splitCharList c l) = l := by
  induction l with
  | nil => rfl
  | cons x xs ih =>
    by_cases hx : x = c
    · subst hx
      rw [splitCharList_cons_self]
      cases hs : splitCharList x xs with
      | nil => exact absurd hs (splitCharList_ne_nil x xs)
      | cons h t =>
        rw [hs] at ih
        rw [joinCharList_cons_cons, List.nil_append, ih]
    · cases hs : splitCharList c xs with
      | nil => exact absurd hs (splitCharList_ne_nil c xs)
      | cons h t =>
        rw [hs] at ih
        have hstep : joinCharList c ((x :: h) :: t) = x :: joinCharList c (h :: t) := by
          cases t with
          | nil => rfl
          | cons t0 tt => rfl
        rw [splitCharList_cons_of_ne c x xs hx h t hs, hstep, ih]

theorem splitCharList_of_not_mem (c : Char) (x : List Char) (h : c ∉ x) :
    splitCharList c x = [x] := by
  induction x with
  | nil => rfl
  | cons a as ih =>
    have ha : a ≠ c := fun hc => h (by rw [← hc]; exact List.mem_cons_self a as)
    have h2 : c ∉ as := fun hc => h (List.mem_cons_of_mem a hc)
    rw [splitCharList_cons_of_ne c a as ha as [] (ih h2)]

theorem splitCharList_append_cons (c : Char) (x l : List Char) (h : c ∉ x) :
    splitCharList c (x ++ c :: l) = x :: splitCharList c l := by
  induction x with
  | nil =>
    rw [List.nil_append]
    exact splitCharList_cons_self c l
  | cons a as ih =>
    have ha : a ≠ c := fun hc => h (by rw [← hc]; exact List.mem_cons_self a as)
    have h2 : c ∉ as := fun hc => h (List.mem_cons_of_mem a hc)
    rw [List.cons_append]
    exact splitCharList_cons_of_ne c a (as ++ c :: l) ha as (splitCharList c l) (ih h2)

theorem splitCharList_joinCharList (c : Char) (ll : List (List Char)) (hne : ll ≠ [])
    (hfree : ∀ x ∈ ll, c ∉ x) : splitCharList c (joinCharList c ll) = ll := by
  induction ll with
  | nil => exact absurd rfl hne
  | cons x rest ih =>
    cases rest with
    | nil =>
      rw [show joinCharList c [x] = x from rfl]
      exact splitCharList_of_not_mem c x (hfree x (List.mem_cons_self x []))
    | cons y rr =>
      rw [joinCharList_cons_cons,
        splitCharList_append_cons c x _ (hfree x (List.mem_cons_self x (y :: rr))),
        ih (List.cons_ne_nil y rr) (fun z hz => hfree z (List.mem_cons_of_mem x hz))]

theorem joinCharList_concat (c : Char) (ll : List (List Char)) (x : List Char) (hne : ll ≠ []) :
    joinCharList c (ll ++ [x]) = joinCharList c ll ++ c :: x := by
  induction ll with
  | nil => exact absurd rfl hne
  | cons y rest ih =>
    cases rest with
    | nil => rfl
    | cons z rr =>
      have ih2 := ih (List.cons_ne_nil z rr)
      simp only [List.cons_append] at ih2 ⊢
      rw [joinCharList_cons_cons, joinCharList_cons_cons, ih2, List.append_assoc,
        List.cons_append]

theorem strData_append (a b : String) : (a ++ b).data = a.data ++ b.data := by
  cases a with
  | mk la =>
    cases b with
    | mk lb => rfl

theorem strData_inj (a b : String) (h : a.data = b.data) : a = b := by
  cases a with
  | mk la =>
    cases b with
    | mk lb => exact congrArg String.mk h

theorem strMk_data (s : String) : String.mk s.data = s := by
  cases s with
  | mk l => rfl

theorem jsJoin_data (ll : List String) :
    (jsJoinSlash ll).data = joinCharList '/' (ll.map String.data) := by
  induction ll with
  | nil => rfl
  | cons x rest ih =>
    cases rest with
    | nil => rfl
    | cons y rr =>
      show ((x ++ "/") ++ jsJoinSlash (y :: rr)).data = _
      rw [strData_append, strData_append, ih,
        show ("/" : String).data = ['/'] from rfl,
        show (x :: y :: rr).map String.data =
          x.data :: String.data y :: rr.map String.data from rfl,
        joinCharList_cons_cons, List.append_assoc]
      rfl

theorem jsSplit_map_data (s : String) :
    (jsSplitChar s '/').map String.data = splitCharList '/' s.data := by
  unfold jsSplitChar
  rw [List.map_map]
  have hid : (String.data ∘ String.mk) = id := by
    funext l
    rfl
  rw [hid, List.map_id]

theorem join_split_id (s : String) : jsJoinSlash (jsSplitChar s '/') = s := by
  apply strData_inj
  rw [jsJoin_data, jsSplit_map_data, joinCharList_splitCharList]

theorem split_elems_slash_free (s : String) :
    ∀ x ∈ jsSplitChar s '/', ('/' : Char) ∉ x.data := by
  intro x hx
  have h2 : x.data ∈ (jsSplitChar s '/').map String.data := List.mem_map_of_mem String.data hx
  rw [jsSplit_map_data] at h2
  exact splitCharList_not_mem '/' s.data x.data h2

theorem jsSplit_ne_nil (s : String) : jsSplitChar s '/' ≠ [] := by
  unfold jsSplitChar
  intro h
  exact splitCharList_ne_nil '/' s.data (List.map_eq_nil_iff.mp h)

theorem split_join_id (ll : List String) (hne : ll ≠ [])
    (hfree : ∀ x ∈ ll, ('/' : Char) ∉ x.data) :
    jsSplitChar (jsJoinSlash ll) '/' = ll := by
  have h1 : (jsSplitChar (jsJoinSlash ll) '/').map String.data = ll.map String.data := by
    rw [jsSplit_map_data, jsJoin_data]
    refine splitCharList_joinCharList '/' (ll.map String.data) ?_ ?_
    · intro hc
      exact hne (List.map_eq_nil_iff.mp hc)
    · intro x hx
      obtain ⟨y, hy, rfl⟩ := List.mem_map.mp hx
      exact hfree y hy
  exact List.map_injective_iff.mpr (fun a b h => strData_inj a b h) h1

theorem join_data_concat (ll : List String) (x : String) (hne : ll ≠ []) :
    (jsJoinSlash (ll ++ [x])).data = (jsJoinSlash ll).data ++ '/' :: x.data := by
  rw [jsJoin_data, jsJoin_data, List.map_append,
    show ([x].map String.data) = [x.data] from rfl]
  exact joinCharList_concat '/' (ll.map String.data) x.data
    (fun hc => hne (List.map_eq_nil_iff.mp hc))

theorem join_eq_empty_cases (ll : List String) (h : jsJoinSlash ll = "") :
    ll = [] ∨ ll = [""] := by
  cases ll with
  | nil => exact Or.inl rfl
  | cons x rest =>
    cases rest with
    | nil =>
      right
      rw [show jsJoinSlash [x] = x from rfl] at h
      rw [h]
    | cons y rr =>
      exfalso
      have hd := congrArg String.data h
      rw [show jsJoinSlash (x :: y :: rr) = x ++ "/" ++ jsJoinSlash (y :: rr) from rfl,
        strData_append, strData_append,
        show ("" : String).data = ([] : List Char) from rfl] at hd
      obtain ⟨h1, h2⟩ := List.append_eq_nil.mp hd
      obtain ⟨h3, h4⟩ := List.append_eq_nil.mp h1
      exact List.cons_ne_nil '/' []
        (by rw [show ("/" : String).data = ['/'] from rfl] at h4; exact h4)

theorem strip_no_slash (s : String) (h : s.data.getLast? ≠ some '/') :
    stripTrailingSlash s = s := by
  unfold stripTrailingSlash
  rw [if_neg (by simpa using h)]

/-- Filtered segments of a joined `dl ++ [e]`: the trailing-slash strip and
split cancel, so the filter decomposes into the filter of `dl` and of
`[e]` (the degenerate `[""]`, i.e. the empty path, is excluded). -/
theorem segs_join_concat (dl : List String) (e : String)
    (hfree : ∀ x ∈ dl ++ [e], ('/' : Char) ∉ x.data)
    (hdeg : ¬ (dl = [] ∧ e = "")) :
    pathSegmentsOf (jsJoinSlash (dl ++ [e])) =
      dl.filter (fun p => p != "" && p != ".") ++
        [e].filter (fun p => p != "" && p != ".") := by
  have hefree : ('/' : Char) ∉ e.data :=
    hfree e (List.mem_append_right dl (List.mem_cons_self e []))
  by_cases he : e = ""
  · subst he
    have hdl : dl ≠ [] := fun hc => hdeg ⟨hc, rfl⟩
    have hdata : (jsJoinSlash (dl ++ [""])).data = (jsJoinSlash dl).data ++ ['/'] := by
      rw [join_data_concat dl "" hdl]
    have hstrip : stripTrailingSlash (jsJoinSlash (dl ++ [""])) = jsJoinSlash dl := by
      unfold stripTrailingSlash
      rw [hdata, List.getLast?_concat,
        if_pos (show (some '/' == some '/') = true from rfl), List.dropLast_concat]
    unfold pathSegmentsOf
    rw [hstrip, split_join_id dl hdl (fun x hx => hfree x (List.mem_append_left [""] hx)),
      show ([""].filter (fun p => p != "" && p != ".")) = ([] : List String) from rfl,
      List.append_nil]
  · have hlast : (jsJoinSlash (dl ++ [e])).data.getLast? = e.data.getLast? := by
      cases dl with
      | nil => rfl
      | cons d dr =>
        rw [join_data_concat (d :: dr) e (List.cons_ne_nil d dr),
          getLast?_append_right _ _ (List.cons_ne_nil '/' e.data)]
        cases hc : e.data with
        | nil => exact absurd (strData_inj e "" hc) he
        | cons c0 cs => rw [List.getLast?_cons_cons]
    have hnoslash : (jsJoinSlash (dl ++ [e])).data.getLast? ≠ some '/' := by
      rw [hlast]
      intro hc
      exact hefree (getLast?_mem_of_eq e.data '/' hc)
    unfold pathSegmentsOf
    rw [strip_no_slash _ hnoslash, split_join_id (dl ++ [e]) (by simp) hfree,
      List.filter_append]

theorem fallbackStr_ne_empty (path : String) : fallbackStr path ≠ "" := by
  show (if jsJoinSlash ((jsSplitChar path '/').dropLast) = ""
    then (if jsStartsWithSlash path then "/" else ".")
    else jsJoinSlash ((jsSplitChar path '/').dropLast)) ≠ ""
  by_cases h : jsJoinSlash ((jsSplitChar path '/').dropLast) = ""
  · rw [if_pos h]
    by_cases h2 : jsStartsWithSlash path = true
    · rw [if_pos h2]
      decide
    · rw [if_neg h2]
      decide
  · rw [if_neg h]
    exact h

/-- The resolution path of the fallback string: the fold of the filtered
head raw segments from the same starting accumulator. -/
theorem rpp_eq_foldl (base : List String) (path : String) (dl : List String) (e : String)
    (hraw : jsSplitChar path '/' = dl ++ [e]) :
    resolutionPathOf base (fallbackStr path) =
      (dl.filter (fun p => p != "" && p != ".")).foldl applySegment
        (if jsStartsWithSlash path then [] else base) := by
  have hfree : ∀ x ∈ dl ++ [e], ('/' : Char) ∉ x.data := fun x hx =>
    split_elems_slash_free path x (by rw [hraw]; exact hx)
  have hpath : path = jsJoinSlash (dl ++ [e]) := by
    rw [← hraw, join_split_id]
  have hfb : fallbackStr path =
      if jsJoinSlash dl = "" then (if jsStartsWithSlash path then "/" else ".")
      else jsJoinSlash dl := by
    show (if jsJoinSlash ((jsSplitChar path '/').dropLast) = ""
      then (if jsStartsWithSlash path then "/" else ".")
      else jsJoinSlash ((jsSplitChar path '/').dropLast)) = _
    rw [hraw, List.dropLast_concat]
  by_cases hpp : jsJoinSlash dl = ""
  · rcases join_eq_empty_cases dl hpp with rfl | rfl
    · have habs : jsStartsWithSlash path = false := by
        rw [hpath]
        cases hd : e.data with
        | nil =>
          unfold jsStartsWithSlash
          rw [show (jsJoinSlash ([] ++ [e])).data = e.data from rfl, hd]
          rfl
        | cons c0 cs =>
          unfold jsStartsWithSlash
          rw [show (jsJoinSlash ([] ++ [e])).data = e.data from rfl, hd]
          refine beq_eq_false_iff_ne.mpr (fun hc => ?_)
          have hc2 := Option.some.inj hc
          refine hfree e (List.mem_append_right [] (List.mem_cons_self e [])) ?_
          rw [hd, ← hc2]
          exact List.mem_cons_self c0 cs
      rw [hfb, if_pos hpp, habs]
      rfl
    · have hdata2 : path.data = '/' :: e.data := by
        rw [hpath, show jsJoinSlash ([""] ++ [e]) = "" ++ "/" ++ e from rfl,
          strData_append, strData_append]
        rfl
      have habs : jsStartsWithSlash path = true := by
        unfold jsStartsWithSlash
        rw [hdata2]
        rfl
      rw [hfb, if_pos hpp, habs]
      rfl
  · have hdl : dl ≠ [] := fun hc => hpp (by rw [hc]; rfl)
    have hdl1 : dl ≠ [""] := fun hc => hpp (by rw [hc]; rfl)
    rw [hfb, if_neg hpp]
    unfold resolutionPathOf
    rcases List.eq_nil_or_concat' dl with rfl | ⟨dl2, e2, rfl⟩
    · exact absurd rfl hdl
    · rw [segs_join_concat dl2 e2 (fun x hx => hfree x (List.mem_append_left [e] hx))
        (fun hc => hdl1 (by rw [hc.1, hc.2]; rfl)), ← List.filter_append]
      have hjdata : (jsJoinSlash (dl2 ++ [e2])).data ≠ [] := by
        intro hc
        exact hpp (strData_inj _ "" hc)
      have hpathdata : path.data = (jsJoinSlash (dl2 ++ [e2])).data ++ '/' :: e.data := by
        rw [hpath, join_data_concat (dl2 ++ [e2]) e (by simp)]
      have hhead : jsStartsWithSlash (jsJoinSlash (dl2 ++ [e2])) = jsStartsWithSlash path := by
        unfold jsStartsWithSlash
        rw [hpathdata, head?_append_left _ _ hjdata]
      rw [hhead]

/-- Core fallback relation: the resolution path of a nonempty `path` is the
resolution path of its fallback string folded with the filtered last raw
segment. -/
theorem resolutionPath_fallback_step (base : List String) (path : String) (hne : path ≠ "") :
    resolutionPathOf base path =
      ([((jsSplitChar path '/').getLast?).getD ""].filter
        (fun p => p != "" && p != ".")).foldl applySegment
        (resolutionPathOf base (fallbackStr path)) := by
  rcases List.eq_nil_or_concat' (jsSplitChar path '/') with hnil | ⟨dl, e, hraw⟩
  · exact absurd hnil (jsSplit_ne_nil path)
  · have hlast : ((jsSplitChar path '/').getLast?).getD "" = e := by
      rw [hraw, List.getLast?_concat]
      rfl
    have hfree : ∀ x ∈ dl ++ [e], ('/' : Char) ∉ x.data := fun x hx =>
      split_elems_slash_free path x (by rw [hraw]; exact hx)
    have hpath : path = jsJoinSlash (dl ++ [e]) := by
      rw [← hraw, join_split_id]
    have hdeg : ¬ (dl = [] ∧ e = "") := by
      rintro ⟨rfl, rfl⟩
      exact hne (by rw [hpath]; rfl)
    have hsegs : pathSegmentsOf path =
        dl.filter (fun p => p != "" && p != ".") ++
          [e].filter (fun p => p != "" && p != ".") := by
      rw [hpath]
      exact segs_join_concat dl e hfree hdeg
    rw [hlast, rpp_eq_foldl base path dl e hraw, ← List.foldl_append]
    unfold resolutionPathOf
    rw [hsegs]

/-- Trichotomy: the resolution path of `path` equals that of its fallback
string, extends it by one final segment, or is its `dropLast` (when the
last raw segment is `..`). -/
theorem resolutionPath_fallback_tri (base : List String) (path : String) (hne : path ≠ "") :
    resolutionPathOf base path = resolutionPathOf base (fallbackStr path) ∨
    (∃ s, resolutionPathOf base path = resolutionPathOf base (fallbackStr path) ++ [s]) ∨
    resolutionPathOf base path = (resolutionPathOf base (fallbackStr path)).dropLast := by
  have h := resolutionPath_fallback_step base path hne
  generalize hsd : (((jsSplitChar path '/').getLast?).getD "") = s at h
  by_cases h1 : (s != "" && s != ".") = true
  · rw [(show ([s].filter (fun p => p != "" && p != ".")) = [s] by
      rw [List.filter_cons, if_pos h1]
      rfl)] at h
    rw [(show List.foldl applySegment (resolutionPathOf base (fallbackStr path)) [s] =
        applySegment (resolutionPathOf base (fallbackStr path)) s from rfl)] at h
    by_cases h2 : s = ".."
    · right
      right
      rw [h, (show applySegment (resolutionPathOf base (fallbackStr path)) s =
          (resolutionPathOf base (fallbackStr path)).dropLast by
        unfold applySegment
        rw [if_pos h2])]
    · right
      left
      refine ⟨s, ?_⟩
      rw [h, (show applySegment (resolutionPathOf base (fallbackStr path)) s =
          resolutionPathOf base (fallbackStr path) ++ [s] by
        unfold applySegment
        rw [if_neg h2])]
  · left
    rw [(show ([s].filter (fun p => p != "" && p != ".")) = ([] : List String) by
      rw [List.filter_cons, if_neg h1]
      rfl)] at h
    exact h

/-! ### C4 helper lemmas: each mutating command on a returned failed resolution -/

theorem mkdirTouch_res_fail (action : String) (ha : action ≠ "") (fs : FS) (cwd : List String)
    (p : String) (r : ResolveResult) (hres : resolvePath fs cwd p = some r)
    (hpar : r.parent = none) (hn : r.node = none) :
    ∃ e, mkdirTouchCmd action fs cwd [p] = some e ∧ e.output ≠ "" ∧ e.fs = fs := by
  by_cases hp : p = ""
  · subst hp
    exact ⟨⟨action ++ ": missing operand", fs⟩, rfl, str_append_ne_left action _ ha, rfl⟩
  · refine ⟨⟨action ++ ": cannot create " ++ (if action = "mkdir" then "directory " else "file ") ++
      p ++ ": No such file or directory", fs⟩, ?_, ?_, rfl⟩
    · simp only [mkdirTouchCmd, List.getD_cons_zero]
      rw [if_neg hp]
      simp only [hres, hn, hpar]
    · exact str_append_ne_left _ _ (str_append_ne_left _ _
        (str_append_ne_left _ _ (str_append_ne_left action _ ha)))

theorem edit_res_fail (fs : FS) (cwd : List String)
    (p : String) (r : ResolveResult) (hres : resolvePath fs cwd p = some r)
    (hpar : r.parent = none) (hn : r.node = none) :
    ∃ e, editCmd fs cwd [p] = some e ∧ e.output ≠ "" ∧ e.fs = fs := by
  by_cases hp : p = ""
  · subst hp
    exact ⟨⟨"edit: missing operand", fs⟩, rfl,
      show ("edit: missing operand" : String) ≠ "" by decide, rfl⟩
  · refine ⟨⟨"edit: cannot create file " ++ p ++ ": No such file or directory", fs⟩, ?_, ?_, rfl⟩
    · simp only [editCmd, List.getD_cons_zero]
      rw [if_neg hp]
      simp only [hres, hn, hpar]
    · exact str_append_ne_left _ _ (str_append_ne_left _ _ (by decide))

theorem echo_res_fail (fs : FS) (cwd : List String) (t : String)
    (p : String) (r : ResolveResult) (hres : resolvePath fs cwd p = some r)
    (hpar : r.parent = none) :
    ∃ e, echoRedirect fs cwd t p = some e ∧ e.output ≠ "" ∧ e.fs = fs := by
  by_cases hp : p = ""
  · subst hp
    exact ⟨⟨"echo: missing output file", fs⟩, rfl,
      show ("echo: missing output file" : String) ≠ "" by decide, rfl⟩
  · refine ⟨⟨"echo: cannot write to " ++ p ++ ": Invalid path", fs⟩, ?_, ?_, rfl⟩
    · simp only [echoRedirect]
      rw [if_neg hp]
      simp only [hres, hpar]
    · exact str_append_ne_left _ _ (str_append_ne_left _ _ (by decide))

theorem rm_res_fail (fs : FS) (cwd : List String)
    (p : String) (r : ResolveResult) (hres : resolvePath fs cwd p = some r)
    (hn : r.node = none) :
    ∃ e, rmCmd fs cwd [p] = some e ∧ e.output ≠ "" ∧ e.fs = fs := by
  by_cases hr : p = "-r"
  · subst hr
    exact ⟨⟨"rm: missing operand", fs⟩, rfl,
      show ("rm: missing operand" : String) ≠ "" by decide, rfl⟩
  · by_cases hp : p = ""
    · subst hp
      exact ⟨⟨"rm: missing operand", fs⟩, rfl,
        show ("rm: missing operand" : String) ≠ "" by decide, rfl⟩
    · refine ⟨⟨"rm: cannot remove " ++ p ++ ": No such file or directory", fs⟩, ?_, ?_, rfl⟩
      · have hbeq : (p == "-r") = false := beq_eq_false_iff_ne.mpr hr
        simp only [rmCmd, show [p].getD 0 "" = p from rfl,
          show [p].getD 1 "" = ("" : String) from rfl, hbeq, Bool.false_eq_true, if_false]
        rw [if_neg hp]
        simp only [hres, hn]
      · exact str_append_ne_left _ _ (str_append_ne_left _ _ (by decide))

theorem mvCp_src_fail (action : String) (ha : action ≠ "") (fs : FS) (cwd : List String)
    (p q : String) (r : ResolveResult) (hres : resolvePath fs cwd p = some r)
    (hn : r.node = none) :
    ∃ e, mvCpCmd action fs cwd [p, q] = some e ∧ e.output ≠ "" ∧ e.fs = fs := by
  by_cases hp : p = ""
  · subst hp
    refine ⟨⟨action ++ ": missing operand", fs⟩, ?_, str_append_ne_left action _ ha, rfl⟩
    simp only [mvCpCmd, show ["", q].getD 0 "" = ("" : String) from rfl]
    rw [if_pos (Or.inl trivial)]
  · by_cases hq : q = ""
    · subst hq
      refine ⟨⟨action ++ ": missing operand", fs⟩, ?_, str_append_ne_left action _ ha, rfl⟩
      simp only [mvCpCmd, show [p, ""].getD 1 "" = ("" : String) from rfl]
      rw [if_pos (Or.inr trivial)]
    · refine ⟨⟨action ++ ": cannot stat " ++ p ++ ": No such file or directory", fs⟩, ?_, ?_, rfl⟩
      · simp only [mvCpCmd, show [p, q].getD 0 "" = p from rfl, show [p, q].getD 1 "" = q from rfl]
        rw [if_neg (not_or.mpr ⟨hp, hq⟩)]
        simp only [hres, hn]
      · exact str_append_ne_left _ _ (str_append_ne_left _ _ (str_append_ne_left action _ ha))

theorem mvCp_dest_fail (action : String) (ha : action ≠ "") (fs : FS) (cwd : List String)
    (p q : String) (r rq : ResolveResult)
    (hres : resolvePath fs cwd p = some r)
    (hpar : r.parent = none) (hn : r.node = none)
    (hresq : resolvePath fs cwd q = some rq) :
    ∃ e, mvCpCmd action fs cwd [q, p] = some e ∧ e.output ≠ "" ∧ e.fs = fs := by
  by_cases hq : q = ""
  · subst hq
    refine ⟨⟨action ++ ": missing operand", fs⟩, ?_, str_append_ne_left action _ ha, rfl⟩
    simp only [mvCpCmd, show ["", p].getD 0 "" = ("" : String) from rfl]
    rw [if_pos (Or.inl trivial)]
  · by_cases hp : p = ""
    · subst hp
      refine ⟨⟨action ++ ": missing operand", fs⟩, ?_, str_append_ne_left action _ ha, rfl⟩
      simp only [mvCpCmd, show [q, ""].getD 1 "" = ("" : String) from rfl]
      rw [if_pos (Or.inr trivial)]
    · have hdl : getNodeFromPath fs r.fullPath.dropLast = none :=
        resolvePath_parent_none_dropLast fs cwd p r hres hpar
      cases hsrc : rq.node with
      | none =>
        refine ⟨⟨action ++ ": cannot stat " ++ q ++ ": No such file or directory", fs⟩,
          ?_, ?_, rfl⟩
        · simp only [mvCpCmd, show [q, p].getD 0 "" = q from rfl,
            show [q, p].getD 1 "" = p from rfl]
          rw [if_neg (not_or.mpr ⟨hq, hp⟩)]
          simp only [hresq, hsrc]
        · exact str_append_ne_left _ _ (str_append_ne_left _ _ (str_append_ne_left action _ ha))
      | some src =>
        refine ⟨⟨action ++ ": cannot move to " ++ p ++ ": No such file or directory", fs⟩,
          ?_, ?_, rfl⟩
        · simp only [mvCpCmd, show [q, p].getD 0 "" = q from rfl,
            show [q, p].getD 1 "" = p from rfl]
          rw [if_neg (not_or.mpr ⟨hq, hp⟩)]
          simp only [hresq, hsrc, hres, hn, hdl, Bool.false_eq_true, if_false]
        · exact str_append_ne_left _ _ (str_append_ne_left _ _ (str_append_ne_left action _ ha))

/-! ### Claim theorems -/

/-- C1: the claim says an editor save on a still-existing file commits the
content verbatim.  The code resolves the editor path with its leading
slash stripped, relative to the current directory; from the default
working directory `/home/user` the doubled path does not exist, so the
save of `/home/user/README.md` is silently dropped: the handler returns
(no crash) with the tree unchanged even though the file exists with its
old content. -/
theorem c1_save_silently_dropped_for_existing_file :
    handleSaveFile initialFS ["home", "user"] "/home/user/README.md" "CHANGED" =
      some initialFS ∧
    getNodeFromPath initialFS ["home", "user", "README.md"] =
      some (Node.file "README.md"
        "Hello! This is a README file. You can edit it using the `edit` command.") :=
  ⟨rfl, rfl⟩

/-- C2: the claim says grep selects lines case-insensitively.  The line
selection `line.includes(pattern)` is case-sensitive: on a file with
lines `foo bar` and `baz` the pattern `foo` selects exactly one line, but
on a file with lines `foo bar` and `FOO` the upper-case line is not
selected, contradicting the claimed case-insensitive match. -/
theorem c2_grep_selection_case_sensitive :
    grepMatches "foo bar\nbaz" "foo" = ["foo bar"] ∧
    grepMatches "foo bar\nFOO" "foo" = ["foo bar"] :=
  ⟨rfl, rfl⟩

/-- C3 counterexample: resolving `README.md/x` from `/home/user` in the
initial filesystem hits the FILE `README.md` one segment before the end;
the claim says parent and node are both absent, but the returned parent
is the file node itself (the `DirectoryNode` cast is compile-time only). -/
theorem c3_parent_not_absent_counterexample :
    resolvePath initialFS ["home", "user"] "README.md/x" =
      some ⟨some readmeNode, none, "x", ["home", "user", "README.md", "x"]⟩ :=
  rfl

/-- C3 amended (universal): for every tree, base and nonempty path, if an
existing FILE node sits at a proper nonempty prefix of the resolved
segment list (i.e. resolution passes through it strictly before the final
segment), then every returning resolver call yields an absent target
node; the returned parent is that FILE node itself when the FILE occupies
the penultimate resolved position, and is absent when the FILE lies two
or more segments before the final one. -/
theorem c3_file_before_final_segment (fs : FS) (base : List String) (path : String)
    (q : List String) (nm c : String)
    (hne : path ≠ "")
    (hpfx : q <+: resolutionPathOf base path)
    (hqne : q ≠ resolutionPathOf base path)
    (hfile : getNodeFromPath fs q = some (Node.file nm c))
    (r : ResolveResult) (hres : resolvePath fs base path = some r) :
    r.node = none ∧
    (q = (resolutionPathOf base path).dropLast → r.parent = some (Node.file nm c)) ∧
    (q ≠ (resolutionPathOf base path).dropLast → r.parent = none) := by
  have hrpnone : getNodeFromPath fs (resolutionPathOf base path) = none :=
    getNode_none_of_file_proper_pfx fs q _ nm c hfile hpfx hqne
  have hqdrop : q <+: (resolutionPathOf base path).dropLast :=
    pfx_proper_dropLast q _ hpfx hqne
  suffices haux : ∀ fuel r2, resolvePathAux fuel fs base path = some r2 →
      r2.node = none ∧
      (q = (resolutionPathOf base path).dropLast → r2.parent = some (Node.file nm c)) ∧
      (q ≠ (resolutionPathOf base path).dropLast → r2.parent = none) by
    exact haux ((jsSplitChar path '/').length + 2) r hres
  intro fuel r2 hr2
  cases fuel with
  | zero =>
    rw [resolvePathAux_zero_crash fs base path hne hrpnone] at hr2
    exact Option.noConfusion hr2
  | succ fuel2 =>
    cases hfb : resolvePathAux fuel2 fs base (fallbackStr path) with
    | none =>
      rw [resolvePathAux_fb_crash fuel2 fs base path hne hrpnone hfb] at hr2
      exact Option.noConfusion hr2
    | some rfb =>
      have hnd : ∀ dn dch, rfb.node ≠ some (Node.dir dn dch) := by
        intro dn dch hdir
        have hcfb := resolve_cases fuel2 fs base (fallbackStr path)
          (fallbackStr_ne_empty path) rfb hfb
        rw [hcfb.2.1] at hdir
        rcases resolutionPath_fallback_tri base path hne with h1 | ⟨s, h2⟩ | h3
        · rw [← h1, hrpnone] at hdir
          exact Option.noConfusion hdir
        · have hqpp : q <+: resolutionPathOf base (fallbackStr path) := by
            have h4 := hqdrop
            rw [h2, List.dropLast_concat] at h4
            exact h4
          by_cases hqe : q = resolutionPathOf base (fallbackStr path)
          · rw [← hqe, hfile] at hdir
            exact Node.noConfusion (Option.some.inj hdir)
          · rw [getNode_none_of_file_proper_pfx fs q _ nm c hfile hqpp hqe] at hdir
            exact Option.noConfusion hdir
        · have hqpp : q <+: resolutionPathOf base (fallbackStr path) :=
            pfx_trans q _ _ (by rw [← h3]; exact hpfx) (dropLast_pfx _)
          have hlen : q.length < (resolutionPathOf base (fallbackStr path)).length := by
            have hl1 : q.length ≤ (resolutionPathOf base path).length := pfx_length_le q _ hpfx
            have hl2 : q.length ≠ (resolutionPathOf base path).length := by
              intro hc
              exact hqne (pfx_eq_of_length q _ hpfx hc)
            have hl3 : (resolutionPathOf base path).length =
                (resolutionPathOf base (fallbackStr path)).length - 1 := by
              rw [h3, List.length_dropLast]
            omega
          have hqe : q ≠ resolutionPathOf base (fallbackStr path) := by
            intro hc
            rw [hc] at hlen
            exact Nat.lt_irrefl _ hlen
          rw [getNode_none_of_file_proper_pfx fs q _ nm c hfile hqpp hqe] at hdir
          exact Option.noConfusion hdir
      rw [resolvePathAux_fb_other fuel2 fs base path hne hrpnone rfb hfb hnd] at hr2
      injection hr2 with hr3
      subst hr3
      refine ⟨rfl, ?_, ?_⟩
      · intro hpen
        show getNodeFromPath fs (resolutionPathOf base path).dropLast = some (Node.file nm c)
        rw [← hpen]
        exact hfile
      · intro hpen
        show getNodeFromPath fs (resolutionPathOf base path).dropLast = none
        exact getNode_none_of_file_proper_pfx fs q _ nm c hfile hqdrop hpen

/-- C3 witness: the amended theorem applied at a concrete filesystem that
has a file `f.txt` at the root, with path `f.txt/x` (the FILE at the
penultimate resolved position). -/
theorem c3_witness :
    getNodeFromPath fsWithFile ["f.txt"] = some (Node.file "f.txt" "z") ∧
    resolvePath fsWithFile [] "f.txt/x" =
      some ⟨some (Node.file "f.txt" "z"), none, "x", ["f.txt", "x"]⟩ ∧
    (⟨some (Node.file "f.txt" "z"), none, "x", ["f.txt", "x"]⟩ : ResolveResult).node = none ∧
    (⟨some (Node.file "f.txt" "z"), none, "x", ["f.txt", "x"]⟩ : ResolveResult).parent =
      some (Node.file "f.txt" "z") := by
  have h := c3_file_before_final_segment fsWithFile [] "f.txt/x" ["f.txt"] "f.txt" "z"
    (by decide) (by decide) (by decide) rfl
    ⟨some (Node.file "f.txt" "z"), none, "x", ["f.txt", "x"]⟩ rfl
  exact ⟨rfl, rfl, h.1, h.2.1 (by decide)⟩

/-- C4: when path resolution returns its unresolvable outcome (both parent
and node absent), every mutating command — mkdir, touch, edit, echo with
redirect, rm, and mv/cp with the failed path in either operand position
(for the destination position, provided the source resolution also
returns) — produces a non-empty error output and a tree identical to the
input tree. -/
theorem c4_failed_resolution_leaves_tree_untouched (fs : FS) (cwd : List String) (p : String)
    (r : ResolveResult) (hres : resolvePath fs cwd p = some r)
    (hpar : r.parent = none) (hn : r.node = none) :
    (∃ e, mkdirTouchCmd "mkdir" fs cwd [p] = some e ∧ e.output ≠ "" ∧ e.fs = fs) ∧
    (∃ e, mkdirTouchCmd "touch" fs cwd [p] = some e ∧ e.output ≠ "" ∧ e.fs = fs) ∧
    (∃ e, editCmd fs cwd [p] = some e ∧ e.output ≠ "" ∧ e.fs = fs) ∧
    (∀ t, ∃ e, echoRedirect fs cwd t p = some e ∧ e.output ≠ "" ∧ e.fs = fs) ∧
    (∃ e, rmCmd fs cwd [p] = some e ∧ e.output ≠ "" ∧ e.fs = fs) ∧
    (∀ q, ∃ e, mvCpCmd "mv" fs cwd [p, q] = some e ∧ e.output ≠ "" ∧ e.fs = fs) ∧
    (∀ q, ∃ e, mvCpCmd "cp" fs cwd [p, q] = some e ∧ e.output ≠ "" ∧ e.fs = fs) ∧
    (∀ q rq, resolvePath fs cwd q = some rq →
      ∃ e, mvCpCmd "mv" fs cwd [q, p] = some e ∧ e.output ≠ "" ∧ e.fs = fs) ∧
    (∀ q rq, resolvePath fs cwd q = some rq →
      ∃ e, mvCpCmd "cp" fs cwd [q, p] = some e ∧ e.output ≠ "" ∧ e.fs = fs) :=
  ⟨mkdirTouch_res_fail "mkdir" (by decide) fs cwd p r hres hpar hn,
   mkdirTouch_res_fail "touch" (by decide) fs cwd p r hres hpar hn,
   edit_res_fail fs cwd p r hres hpar hn,
   fun t => echo_res_fail fs cwd t p r hres hpar,
   rm_res_fail fs cwd p r hres hn,
   fun q => mvCp_src_fail "mv" (by decide) fs cwd p q r hres hn,
   fun q => mvCp_src_fail "cp" (by decide) fs cwd p q r hres hn,
   fun q rq hrq => mvCp_dest_fail "mv" (by decide) fs cwd p q r rq hres hpar hn hrq,
   fun q rq hrq => mvCp_dest_fail "cp" (by decide) fs cwd p q r rq hres hpar hn hrq⟩

/-- C4 witness: the failed-resolution theorem at the initial filesystem
with the unresolvable (but terminating) path `nope/sub`. -/
theorem c4_witness :
    resolvePath initialFS ["home", "user"] "nope/sub" =
      some ⟨none, none, "sub", ["home", "user", "nope", "sub"]⟩ ∧
    (∃ e, mkdirTouchCmd "mkdir" initialFS ["home", "user"] ["nope/sub"] = some e ∧
      e.output ≠ "" ∧ e.fs = initialFS) :=
  ⟨rfl, (c4_failed_resolution_leaves_tree_untouched initialFS ["home", "user"] "nope/sub"
    ⟨none, none, "sub", ["home", "user", "nope", "sub"]⟩ rfl rfl rfl).1⟩

/-- C8: a `..` segment pops the last accumulated segment (`dropLast`, a
no-op at the root of the accumulated list): the resolution path of `".."`
is `base.dropLast` for every base, every returning resolver call on
`".."` carries exactly that canonical path, and with the current
directory at the root the call always returns the synthetic root
directory itself with canonical path `[]` — never an error, never above
the root. -/
theorem c8_dotdot_pops_and_is_noop_at_root (fs : FS) (base : List String) :
    resolutionPathOf base ".." = base.dropLast ∧
    (∀ r, resolvePath fs base ".." = some r → r.fullPath = base.dropLast) ∧
    resolvePath fs [] ".." =
      some ⟨some (Node.dir "root" fs), some (Node.dir "root" fs), "", []⟩ := by
  refine ⟨rfl, ?_, ?_⟩
  · intro r hr
    rw [resolvePath_fullPath fs base ".." r (by decide) hr]
    rfl
  · have hg : getNodeFromPath fs (resolutionPathOf [] "..") = some (Node.dir "root" fs) := rfl
    rw [show resolvePath fs [] ".." = resolvePathAux 3 fs [] ".." from rfl,
      resolvePathAux_main 3 fs [] ".." (by decide) _ hg]
    rfl

/-- C8 witness: resolving `..` from `/home/user` of the initial filesystem
returns, with canonical path `["home"]` (the popped base). -/
theorem c8_witness :
    resolvePath initialFS ["home", "user"] ".." =
      some ⟨some (Node.dir "root" initialFS), some (Node.dir "home" [("user", userNode)]),
        "home", ["home"]⟩ ∧
    (⟨some (Node.dir "root" initialFS), some (Node.dir "home" [("user", userNode)]),
      "home", ["home"]⟩ : ResolveResult).fullPath = ["home"] :=
  ⟨rfl, (c8_dotdot_pops_and_is_noop_at_root initialFS ["home", "user"]).2.1
    ⟨some (Node.dir "root" initialFS), some (Node.dir "home" [("user", userNode)]),
      "home", ["home"]⟩ rfl⟩

/-- C6: for a directory with at least one child, `rm d` without `-r`
returns the Is-a-directory refusal and leaves the tree unchanged, while
`rm -r d` deletes the node (with its entire subtree) from its parent and
touches nothing outside that subtree. -/
theorem c6_rm_directory (fs : FS) (cwd : List String) (dPath dn : String) (ch : FS)
    (r : ResolveResult)
    (hne : dPath ≠ "") (hnr : dPath ≠ "-r")
    (hres : resolvePath fs cwd dPath = some r)
    (hnode : r.node = some (Node.dir dn ch))
    (hch : ch ≠ [])
    (hlast : r.fullPath.getLast? = some dn) :
    rmCmd fs cwd [dPath] = some ⟨"rm: cannot remove " ++ dPath ++ ": Is a directory", fs⟩ ∧
    (∃ fs2, rmCmd fs cwd ["-r", dPath] = some ⟨"", fs2⟩ ∧
      getNodeFromPath fs2 r.fullPath = none ∧
      ∀ q, q ≠ [] → ¬ (r.fullPath <+: q) → ¬ (q <+: r.fullPath) →
        getNodeFromPath fs2 q = getNodeFromPath fs q) := by
  have hgetpd : getNodeFromPath fs r.fullPath = some (Node.dir dn ch) := by
    rw [← resolvePath_node_eq fs cwd dPath r hres]
    exact hnode
  have hmem : dn ∈ r.fullPath.getLast? := Option.mem_def.mpr hlast
  have pdEq : r.fullPath.dropLast ++ [dn] = r.fullPath :=
    List.dropLast_append_getLast? dn hmem
  obtain ⟨pdn, pch, hpd, hrecg⟩ :=
    getNodeFromPath_concat_some fs r.fullPath.dropLast dn _ (by rw [pdEq]; exact hgetpd)
  obtain ⟨fs2, hdel⟩ := deleteChildAt_isSome_of_dir _ fs pdn pch dn hpd
  constructor
  · have hbeq : (dPath == "-r") = false := beq_eq_false_iff_ne.mpr hnr
    simp only [rmCmd, show [dPath].getD 0 "" = dPath from rfl,
      show [dPath].getD 1 "" = ("" : String) from rfl, hbeq, Bool.false_eq_true, if_false]
    rw [if_neg hne]
    simp only [hres, hnode, Bool.not_false, Bool.and_true, decide_eq_true_eq]
    rw [if_pos (List.length_pos.mpr hch)]
  · refine ⟨fs2, ?_, ?_, ?_⟩
    · simp only [rmCmd, show ["-r", dPath].getD 0 "" = ("-r" : String) from rfl,
        show ["-r", dPath].getD 1 "" = dPath from rfl,
        show (("-r" : String) == "-r") = true from rfl, eq_self_iff_true, if_true]
      rw [if_neg hne]
      simp only [hres, hnode, Bool.not_true, Bool.and_false, Bool.false_eq_true, if_false]
      rw [hdel]
      rfl
    · rw [← pdEq]
      exact getNodeFromPath_deleteChildAt_concat _ fs fs2 dn hdel
    · intro q hqne hq1 hq2
      refine getNodeFromPath_deleteChildAt_frame _ fs fs2 dn hdel q ?_ ?_
      · intro hql
        obtain ⟨t, ht⟩ := hql
        exact hq2 ⟨t ++ [dn], by rw [← List.append_assoc, ht, pdEq]⟩
      · rw [pdEq]
        exact hq1

/-- C6 witness: `rm /home/user` is refused, `rm -r /home/user` removes the
whole subtree, on the initial filesystem. -/
theorem c6_witness :
    resolvePath initialFS ["home", "user"] "/home/user" =
      some ⟨some (Node.dir "home" [("user", userNode)]), some userNode, "user",
        ["home", "user"]⟩ ∧
    rmCmd initialFS ["home", "user"] ["/home/user"] =
      some ⟨"rm: cannot remove " ++ "/home/user" ++ ": Is a directory", initialFS⟩ ∧
    (∃ fs2, rmCmd initialFS ["home", "user"] ["-r", "/home/user"] = some ⟨"", fs2⟩ ∧
      getNodeFromPath fs2 ["home", "user"] = none ∧
      ∀ q, q ≠ [] → ¬ ((["home", "user"] : List String) <+: q) →
        ¬ (q <+: (["home", "user"] : List String)) →
        getNodeFromPath fs2 q = getNodeFromPath initialFS q) := by
  have h := c6_rm_directory initialFS ["home", "user"] "/home/user" "user"
    [("README.md", readmeNode), ("example.py", examplePyNode)]
    ⟨some (Node.dir "home" [("user", userNode)]), some userNode, "user", ["home", "user"]⟩
    (by decide) (by decide) rfl rfl (List.cons_ne_nil _ _) rfl
  exact ⟨rfl, h.1, h.2⟩

/-- C9: `echo t > d` with `d` resolving to an existing directory reports no
error: it replaces `d` (and thereby its whole subtree) in its parent with
a FILE node of the same name whose content is `t`, leaving everything
outside that position unchanged. -/
theorem c9_echo_replaces_directory (fs : FS) (cwd : List String) (t dPath dn : String) (dch : FS)
    (r : ResolveResult)
    (hne : dPath ≠ "")
    (hres : resolvePath fs cwd dPath = some r)
    (hnode : r.node = some (Node.dir dn dch))
    (hlast : r.fullPath.getLast? = some dn) :
    ∃ fs2, echoRedirect fs cwd t dPath = some ⟨"", fs2⟩ ∧
      getNodeFromPath fs2 r.fullPath = some (Node.file dn t) ∧
      (∀ rest, rest ≠ [] → getNodeFromPath fs2 (r.fullPath ++ rest) = none) ∧
      ∀ q, q ≠ [] → ¬ (r.fullPath <+: q) → ¬ (q <+: r.fullPath) →
        getNodeFromPath fs2 q = getNodeFromPath fs q := by
  have hgetpd : getNodeFromPath fs r.fullPath = some (Node.dir dn dch) := by
    rw [← resolvePath_node_eq fs cwd dPath r hres]
    exact hnode
  have hmem : dn ∈ r.fullPath.getLast? := Option.mem_def.mpr hlast
  have pdEq : r.fullPath.dropLast ++ [dn] = r.fullPath :=
    List.dropLast_append_getLast? dn hmem
  obtain ⟨pdn, pch, hpd, hrecg⟩ :=
    getNodeFromPath_concat_some fs r.fullPath.dropLast dn _ (by rw [pdEq]; exact hgetpd)
  have hname : r.name = dn := by
    rw [resolvePath_name_of_node_some fs cwd dPath r _ hres hnode, hlast]
    rfl
  have hparsome : r.parent = some (Node.dir pdn pch) := by
    rw [resolvePath_parent_of_node_some fs cwd dPath r _ hres hnode]
    exact hpd
  obtain ⟨fs2, hs⟩ := setChildAt_isSome_of_dir r.fullPath.dropLast fs
    pdn pch dn (Node.file dn t) hpd
  refine ⟨fs2, ?_, ?_, ?_, ?_⟩
  · simp only [echoRedirect]
    rw [if_neg hne]
    simp only [hres, hparsome, hname]
    rw [hs]
    rfl
  · rw [← pdEq]
    exact getNodeFromPath_setChildAt_concat _ fs fs2 dn (Node.file dn t) hs
  · intro rest hrest
    rw [← pdEq, List.append_assoc, getNodeFromPath_append fs2 r.fullPath.dropLast ([dn] ++ rest)]
    have hat := getNodeFromPath_setChildAt_concat _ fs fs2 dn (Node.file dn t) hs
    rw [getNodeFromPath_append fs2 r.fullPath.dropLast [dn]] at hat
    cases hm : getNodeFromPath fs2 r.fullPath.dropLast with
    | none => rw [hm] at hat; exact absurd hat (by simp)
    | some m =>
      rw [hm] at hat
      simp only [Option.some_bind] at hat ⊢
      rw [getNodeAux_append [dn] rest m, hat]
      simp only [Option.some_bind]
      exact getNodeAux_file dn t rest hrest
  · intro q hqne hq1 hq2
    refine getNodeFromPath_setChildAt_frame _ fs fs2 dn (Node.file dn t) hs q ?_ ?_
    · intro hql
      obtain ⟨tt, htt⟩ := hql
      exact hq2 ⟨tt ++ [dn], by rw [← List.append_assoc, htt, pdEq]⟩
    · rw [pdEq]
      exact hq1

/-- C9 witness: `echo T > /home/user` on the initial filesystem replaces
the directory `/home/user` with the file `user` containing `T`. -/
theorem c9_witness :
    resolvePath initialFS ["home", "user"] "/home/user" =
      some ⟨some (Node.dir "home" [("user", userNode)]), some userNode, "user",
        ["home", "user"]⟩ ∧
    (∃ fs2, echoRedirect initialFS ["home", "user"] "T" "/home/user" = some ⟨"", fs2⟩ ∧
      getNodeFromPath fs2 ["home", "user"] = some (Node.file "user" "T") ∧
      (∀ rest, rest ≠ [] → getNodeFromPath fs2 (["home", "user"] ++ rest) = none) ∧
      ∀ q, q ≠ [] → ¬ ((["home", "user"] : List String) <+: q) →
        ¬ (q <+: (["home", "user"] : List String)) →
        getNodeFromPath fs2 q = getNodeFromPath initialFS q) :=
  ⟨rfl, c9_echo_replaces_directory initialFS ["home", "user"] "T" "/home/user" "user"
    [("README.md", readmeNode), ("example.py", examplePyNode)]
    ⟨some (Node.dir "home" [("user", userNode)]), some userNode, "user", ["home", "user"]⟩
    (by decide) rfl rfl rfl⟩

/-- C10: `mv a dest` where `dest` resolves to the directory already
containing `a` first overwrites `a` with its own copy and then deletes it
from that same parent, so afterwards the node is gone from its position
and nothing else in the tree has changed — the node is removed entirely. -/
theorem c10_mv_into_containing_directory (fs : FS) (cwd : List String) (ap dp : String)
    (A : Node) (ddn : String) (ddch : FS) (ra rd : ResolveResult)
    (hap : ap ≠ "") (hdp : dp ≠ "")
    (hra : resolvePath fs cwd ap = some ra)
    (hsrc : ra.node = some A)
    (hlast : ra.fullPath.getLast? = some (nodeName A))
    (hrd : resolvePath fs cwd dp = some rd)
    (hdst : rd.node = some (Node.dir ddn ddch))
    (hdfull : rd.fullPath = ra.fullPath.dropLast) :
    ∃ fs3, mvCpCmd "mv" fs cwd [ap, dp] = some ⟨"", fs3⟩ ∧
      getNodeFromPath fs3 ra.fullPath = none ∧
      ∀ q, q ≠ [] → ¬ (ra.fullPath <+: q) → ¬ (q <+: ra.fullPath) →
        getNodeFromPath fs3 q = getNodeFromPath fs q := by
  have hgetpa : getNodeFromPath fs ra.fullPath = some A := by
    rw [← resolvePath_node_eq fs cwd ap ra hra]
    exact hsrc
  have hmem : nodeName A ∈ ra.fullPath.getLast? := Option.mem_def.mpr hlast
  have paEq : ra.fullPath.dropLast ++ [nodeName A] = ra.fullPath :=
    List.dropLast_append_getLast? (nodeName A) hmem
  obtain ⟨pdn, pch, hpd, hrecg⟩ :=
    getNodeFromPath_concat_some fs ra.fullPath.dropLast (nodeName A) _
      (by rw [paEq]; exact hgetpa)
  obtain ⟨fs2, hset⟩ := setChildAt_isSome_of_dir ra.fullPath.dropLast fs
    pdn pch (nodeName A) (renameNode A (nodeName A)) hpd
  obtain ⟨dn2, ch2, hdir2⟩ := setChildAt_spine_dir _ fs fs2 (nodeName A) (renameNode A (nodeName A))
    hset ra.fullPath.dropLast ⟨[], List.append_nil _⟩
  obtain ⟨fs3, hdel⟩ := deleteChildAt_isSome_of_dir _ fs2 dn2 ch2 (nodeName A) hdir2
  refine ⟨fs3, ?_, ?_, ?_⟩
  · simp only [mvCpCmd, show [ap, dp].getD 0 "" = ap from rfl,
      show [ap, dp].getD 1 "" = dp from rfl]
    rw [if_neg (not_or.mpr ⟨hap, hdp⟩)]
    simp only [hra, hsrc, hrd, hdst, eq_self_iff_true, if_true]
    rw [hdfull]
    simp only [hpd]
    rw [hset]
    simp only [eq_self_iff_true, if_true]
    rw [hdel]
    rfl
  · rw [← paEq]
    exact getNodeFromPath_deleteChildAt_concat _ fs2 fs3 (nodeName A) hdel
  · intro q hqne hq1 hq2
    have hc1 : ¬ q <+: ra.fullPath.dropLast := by
      intro hql
      obtain ⟨tt, htt⟩ := hql
      exact hq2 ⟨tt ++ [nodeName A], by rw [← List.append_assoc, htt, paEq]⟩
    have hc2 : ¬ (ra.fullPath.dropLast ++ [nodeName A]) <+: q := by
      rw [paEq]
      exact hq1
    rw [getNodeFromPath_deleteChildAt_frame _ fs2 fs3 (nodeName A) hdel q hc1 hc2]
    exact getNodeFromPath_setChildAt_frame _ fs fs2 (nodeName A) (renameNode A (nodeName A))
      hset q hc1 hc2

/-- C10 witness: `mv example.py .` from `/home/user` on the initial
filesystem removes `example.py` entirely. -/
theorem c10_witness :
    resolvePath initialFS ["home", "user"] "example.py" =
      some ⟨some userNode, some examplePyNode, "example.py", ["home", "user", "example.py"]⟩ ∧
    (∃ fs3, mvCpCmd "mv" initialFS ["home", "user"] ["example.py", "."] = some ⟨"", fs3⟩ ∧
      getNodeFromPath fs3 ["home", "user", "example.py"] = none ∧
      ∀ q, q ≠ [] → ¬ ((["home", "user", "example.py"] : List String) <+: q) →
        ¬ (q <+: (["home", "user", "example.py"] : List String)) →
        getNodeFromPath fs3 q = getNodeFromPath initialFS q) :=
  ⟨rfl, c10_mv_into_containing_directory initialFS ["home", "user"] "example.py" "."
    examplePyNode "user" [("README.md", readmeNode), ("example.py", examplePyNode)]
    ⟨some userNode, some examplePyNode, "example.py", ["home", "user", "example.py"]⟩
    ⟨some (Node.dir "home" [("user", userNode)]), some userNode, "user", ["home", "user"]⟩
    (by decide) (by decide) rfl rfl rfl rfl rfl rfl⟩

/-- C5 amended: `mv a b` with `b` an existing directory distinct from the
source parent places the node at `b/a` and removes it from its original
parent, and `cp` leaves the original intact — provided additionally that
the destination is not the source itself or a descendant of it, and the
insertion position `b/a` is not an ancestor of the source. -/
theorem c5_mv_cp_into_distinct_directory (fs : FS) (cwd : List String) (ap bp : String)
    (A : Node) (bn : String) (bch : FS) (ra rb : ResolveResult)
    (hap : ap ≠ "") (hbp : bp ≠ "")
    (hra : resolvePath fs cwd ap = some ra)
    (hsrc : ra.node = some A)
    (hlast : ra.fullPath.getLast? = some (nodeName A))
    (hrb : resolvePath fs cwd bp = some rb)
    (hdst : rb.node = some (Node.dir bn bch))
    (hne_parent : rb.fullPath ≠ ra.fullPath.dropLast)
    (hnotin : ¬ (ra.fullPath <+: rb.fullPath))
    (hnotanc : ¬ ((rb.fullPath ++ [nodeName A]) <+: ra.fullPath)) :
    (∃ fs3, mvCpCmd "mv" fs cwd [ap, bp] = some ⟨"", fs3⟩ ∧
      getNodeFromPath fs3 (rb.fullPath ++ [nodeName A]) = some A ∧
      getNodeFromPath fs3 ra.fullPath = none) ∧
    (∃ fs2, mvCpCmd "cp" fs cwd [ap, bp] = some ⟨"", fs2⟩ ∧
      getNodeFromPath fs2 (rb.fullPath ++ [nodeName A]) = some A ∧
      getNodeFromPath fs2 ra.fullPath = some A) := by
  have hgetpa : getNodeFromPath fs ra.fullPath = some A := by
    rw [← resolvePath_node_eq fs cwd ap ra hra]
    exact hsrc
  have hgetpb : getNodeFromPath fs rb.fullPath = some (Node.dir bn bch) := by
    rw [← resolvePath_node_eq fs cwd bp rb hrb]
    exact hdst
  have hmem : nodeName A ∈ ra.fullPath.getLast? := Option.mem_def.mpr hlast
  have paEq : ra.fullPath.dropLast ++ [nodeName A] = ra.fullPath :=
    List.dropLast_append_getLast? (nodeName A) hmem
  obtain ⟨pdn, pch, hpd, hrecg⟩ :=
    getNodeFromPath_concat_some fs ra.fullPath.dropLast (nodeName A) _
      (by rw [paEq]; exact hgetpa)
  obtain ⟨fs2, hset⟩ := setChildAt_isSome_of_dir rb.fullPath fs
    bn bch (nodeName A) (renameNode A (nodeName A)) hgetpb
  have hC : ¬ (rb.fullPath ++ [nodeName A]) <+: ra.fullPath.dropLast := fun hc =>
    hnotanc (pfx_of_pfx_dropLast _ _ _ paEq hc)
  have hatdest : getNodeFromPath fs2 (rb.fullPath ++ [nodeName A]) = some A := by
    rw [getNodeFromPath_setChildAt_concat _ fs fs2 (nodeName A) (renameNode A (nodeName A)) hset,
      renameNode_self]
  have horig : getNodeFromPath fs2 ra.fullPath = getNodeFromPath fs ra.fullPath :=
    getNodeFromPath_setChildAt_frame _ fs fs2 (nodeName A) (renameNode A (nodeName A)) hset
      _ hnotin hnotanc
  have hpd2 : ∃ dn2 ch2, getNodeFromPath fs2 ra.fullPath.dropLast =
      some (Node.dir dn2 ch2) := by
    by_cases hpre : ra.fullPath.dropLast <+: rb.fullPath
    · exact setChildAt_spine_dir _ fs fs2 (nodeName A) (renameNode A (nodeName A)) hset _ hpre
    · refine ⟨pdn, pch, ?_⟩
      rw [getNodeFromPath_setChildAt_frame _ fs fs2 (nodeName A) (renameNode A (nodeName A))
        hset _ hpre hC]
      exact hpd
  obtain ⟨dn2, ch2, hdir2⟩ := hpd2
  obtain ⟨fs3, hdel⟩ := deleteChildAt_isSome_of_dir _ fs2 dn2 ch2 (nodeName A) hdir2
  constructor
  · refine ⟨fs3, ?_, ?_, ?_⟩
    · simp only [mvCpCmd, show [ap, bp].getD 0 "" = ap from rfl,
        show [ap, bp].getD 1 "" = bp from rfl]
      rw [if_neg (not_or.mpr ⟨hap, hbp⟩)]
      simp only [hra, hsrc, hrb, hdst, eq_self_iff_true, if_true]
      simp only [hgetpb]
      rw [hset]
      simp only [eq_self_iff_true, if_true]
      rw [hdel]
      rfl
    · rw [getNodeFromPath_deleteChildAt_frame _ fs2 fs3 (nodeName A) hdel _ hC ?hq2]
      · exact hatdest
      case hq2 =>
        rw [paEq]
        intro hc
        rcases pfx_snoc_cases _ _ _ hc with hc1 | hc2
        · exact hnotin hc1
        · exact hne_parent (by rw [hc2, List.dropLast_concat])
    · rw [← paEq]
      exact getNodeFromPath_deleteChildAt_concat _ fs2 fs3 (nodeName A) hdel
  · refine ⟨fs2, ?_, ?_, ?_⟩
    · simp only [mvCpCmd, show [ap, bp].getD 0 "" = ap from rfl,
        show [ap, bp].getD 1 "" = bp from rfl]
      rw [if_neg (not_or.mpr ⟨hap, hbp⟩)]
      simp only [hra, hsrc, hrb, hdst, eq_self_iff_true, if_true]
      simp only [hgetpb]
      rw [hset]
      simp only [if_neg (show ¬ ("cp" : String) = "mv" by decide)]
    · exact hatdest
    · rw [horig]
      exact hgetpa

/-- C5 counterexample: `mv a a/sub` satisfies the claim premise — the
destination `a/sub` is an existing directory distinct from the parent of
`a` — yet the command empties the tree: the copy inserted at `a/sub/a`
is destroyed when the source `a` is deleted, so no node equal to `a`
exists at `b/a` afterwards. -/
theorem c5_mv_into_own_subdirectory_counterexample :
    resolvePath fsNested [] "a" =
      some ⟨some (Node.dir "root" fsNested), some (Node.dir "a" [("sub", Node.dir "sub" [])]),
        "a", ["a"]⟩ ∧
    resolvePath fsNested [] "a/sub" =
      some ⟨some (Node.dir "a" [("sub", Node.dir "sub" [])]), some (Node.dir "sub" []),
        "sub", ["a", "sub"]⟩ ∧
    (["a", "sub"] : List String) ≠ (["a"] : List String).dropLast ∧
    mvCpCmd "mv" fsNested [] ["a", "a/sub"] = some ⟨"", []⟩ ∧
    getNodeFromPath ([] : FS) ["a", "sub", "a"] = none :=
  ⟨rfl, rfl, by decide, rfl, rfl⟩

/-- C5 witness: `mv example.py /home` and `cp example.py /home` from
`/home/user` on the initial filesystem, via the amended theorem. -/
theorem c5_witness :
    (∃ fs3, mvCpCmd "mv" initialFS ["home", "user"] ["example.py", "/home"] = some ⟨"", fs3⟩ ∧
      getNodeFromPath fs3 (["home"] ++ ["example.py"]) = some examplePyNode ∧
      getNodeFromPath fs3 ["home", "user", "example.py"] = none) ∧
    (∃ fs2, mvCpCmd "cp" initialFS ["home", "user"] ["example.py", "/home"] = some ⟨"", fs2⟩ ∧
      getNodeFromPath fs2 (["home"] ++ ["example.py"]) = some examplePyNode ∧
      getNodeFromPath fs2 ["home", "user", "example.py"] = some examplePyNode) :=
  c5_mv_cp_into_distinct_directory initialFS ["home", "user"] "example.py" "/home"
    examplePyNode "home" [("user", userNode)]
    ⟨some userNode, some examplePyNode, "example.py", ["home", "user", "example.py"]⟩
    ⟨some (Node.dir "root" initialFS), some (Node.dir "home" [("user", userNode)]),
      "home", ["home"]⟩
    (by decide) (by decide) rfl rfl rfl rfl rfl (by decide) (by decide) (by decide)

/-- C7: `echo "hi there" > f.txt` in any existing current directory writes
the file `f.txt` with content exactly `hi there` — the text before the
last `>` with one layer of quotes stripped, no redirect artifact — and a
subsequent `cat f.txt` returns exactly that text. -/
theorem c7_echo_redirect_exact_content (fs : FS) (cwd : List String) (n : String) (ch : FS)
    (h : getNodeFromPath fs cwd = some (Node.dir n ch)) :
    ∃ fs2, echoCmd fs cwd "echo \"hi there\" > f.txt" = some ⟨"", fs2⟩ ∧
      getNodeFromPath fs2 (cwd ++ ["f.txt"]) = some (Node.file "f.txt" "hi there") ∧
      catCmd fs2 cwd ["f.txt"] = some ⟨"hi there", fs2⟩ := by
  obtain ⟨fs2, hset⟩ := setChildAt_isSome_of_dir cwd fs n ch "f.txt"
    (Node.file "f.txt" "hi there") h
  have hstep : echoCmd fs cwd "echo \"hi there\" > f.txt" =
      echoRedirect fs cwd "hi there" "f.txt" := rfl
  have hbranch : ∃ rr, resolvePath fs cwd "f.txt" = some rr ∧
      (∃ P, rr.parent = some P) ∧ rr.name = "f.txt" ∧ rr.fullPath = cwd ++ ["f.txt"] := by
    cases hg : getNodeFromPath fs (cwd ++ ["f.txt"]) with
    | some n0 =>
      have hg2 : getNodeFromPath fs (resolutionPathOf cwd "f.txt") = some n0 := hg
      refine ⟨_, resolvePathAux_main 3 fs cwd "f.txt" (by decide) n0 hg2, ?_, ?_, ?_⟩
      · refine ⟨Node.dir n ch, ?_⟩
        show getNodeFromPath fs (resolutionPathOf cwd "f.txt").dropLast = some (Node.dir n ch)
        rw [show (resolutionPathOf cwd "f.txt").dropLast = cwd from by
          show (cwd ++ ["f.txt"]).dropLast = cwd
          exact List.dropLast_concat]
        exact h
      · show ((resolutionPathOf cwd "f.txt").getLast?).getD "" = "f.txt"
        show ((cwd ++ ["f.txt"]).getLast?).getD "" = "f.txt"
        rw [List.getLast?_concat]
        rfl
      · rfl
    | none =>
      have hg2 : getNodeFromPath fs (resolutionPathOf cwd "f.txt") = none := hg
      have hdot : getNodeFromPath fs (resolutionPathOf cwd (fallbackStr "f.txt")) =
          some (Node.dir n ch) := h
      have hin := resolvePathAux_main 2 fs cwd (fallbackStr "f.txt") (by decide)
        (Node.dir n ch) hdot
      refine ⟨_, resolvePathAux_fb_dir 2 fs cwd "f.txt" (by decide) hg2 _ hin n ch rfl,
        ?_, ?_, ?_⟩
      · exact ⟨Node.dir n ch, rfl⟩
      · rfl
      · rfl
  obtain ⟨rr, hrr, ⟨P, hP⟩, hname, hfull⟩ := hbranch
  have hdl : rr.fullPath.dropLast = cwd := by
    rw [hfull]
    exact List.dropLast_concat
  refine ⟨fs2, ?_, ?_, ?_⟩
  · rw [hstep]
    simp only [echoRedirect]
    rw [if_neg (show ("f.txt" : String) ≠ "" by decide)]
    simp only [hrr, hP, hname, hdl]
    rw [hset]
    rfl
  · exact getNodeFromPath_setChildAt_concat cwd fs fs2 "f.txt" (Node.file "f.txt" "hi there") hset
  · have hat := getNodeFromPath_setChildAt_concat cwd fs fs2 "f.txt"
      (Node.file "f.txt" "hi there") hset
    have hg3 : getNodeFromPath fs2 (resolutionPathOf cwd "f.txt") =
        some (Node.file "f.txt" "hi there") := hat
    have hr2 := resolvePathAux_main 3 fs2 cwd "f.txt" (by decide)
      (Node.file "f.txt" "hi there") hg3
    simp only [catCmd, show ["f.txt"].getD 0 "" = ("f.txt" : String) from rfl]
    rw [if_neg (show ("f.txt" : String) ≠ "" by decide)]
    simp only [show resolvePath fs2 cwd "f.txt" = resolvePathAux 3 fs2 cwd "f.txt" from rfl, hr2]

/-- C7 witness: the echo-redirect theorem applied in `/home/user` of the
initial filesystem. -/
theorem c7_witness :
    getNodeFromPath initialFS ["home", "user"] = some userNode ∧
    (∃ fs2, echoCmd initialFS ["home", "user"] "echo \"hi there\" > f.txt" = some ⟨"", fs2⟩ ∧
      getNodeFromPath fs2 (["home", "user"] ++ ["f.txt"]) =
        some (Node.file "f.txt" "hi there") ∧
      catCmd fs2 ["home", "user"] ["f.txt"] = some ⟨"hi there", fs2⟩) :=
  ⟨rfl, c7_echo_redirect_exact_content initialFS ["home", "user"] "user"
    [("README.md", readmeNode), ("example.py", examplePyNode)] rfl⟩
